import Mathlib

/-!
Verification of the runtime core of the lezer-style GLR parser
(`src/state.ts`, `src/token.ts`, `src/tree.ts`).

The TypeScript sources are shallowly embedded: each class becomes a
structure, each method a Lean function translated line by line from the
source.  JavaScript numbers holding positions and term/action codes are
modelled as `Nat`/`Int` (positions that can run below zero during offset
arithmetic are `Int`); `string` becomes `List Nat` of code units;
`undefined`/`null` array reads become `Option`/default reads, and
out-of-range `charCodeAt` is modelled as `-1` (it only occurs in states
that are unreachable for well-formed streams).
-/

set_option maxHeartbeats 1000000

namespace LR

/-! ## ParseState (`src/state.ts`)

`actions`, `goto` and `recover` are flat arrays of `(key, value)` pairs,
exactly as in the source.  The tokenizer fields of `ParseState` are not
part of any lookup operation and are omitted. -/

structure ParseState where
  id : Nat
  actions : List Int
  goto : List Int
  recover : List Int
  alwaysReduce : Int
  defaultReduce : Int
deriving Repr

/-- `lookup` from `src/state.ts`: scan `(key, value)` pairs, return the
value of the first pair whose key matches, and `0` when none does. -/
def lookup : List Int → Int → Int
  | key :: value :: rest, term => if key = term then value else lookup rest term
  | _, _ => 0

def ParseState.hasAction (s : ParseState) (terminal : Int) : Bool :=
  lookup s.actions terminal ≠ 0

def ParseState.getGoto (s : ParseState) (term : Int) : Int :=
  lookup s.goto term

def ParseState.getRecover (s : ParseState) (terminal : Int) : Int :=
  lookup s.recover terminal

/-- The scan loop of `ParseState.anyReduce`: walk the `(terminal, action)`
pairs of `actions` and return the first positive action value, `0` if
there is none.  (When the flat array has odd length the final lone entry
has no action slot; in the source `actions[i+1]` is then `undefined` and
the `> 0` test fails, so the loop falls through to `return 0`, which the
final catch-all case reproduces.) -/
def anyReduceScan : List Int → Int
  | _ :: action :: rest => if action > 0 then action else anyReduceScan rest
  | _ => 0

/-- `ParseState.anyReduce` from `src/state.ts`. -/
def ParseState.anyReduce (s : ParseState) : Int :=
  if s.alwaysReduce ≥ 0 then s.alwaysReduce else anyReduceScan s.actions

/-- Specification-side view of the flat pair array as a list of
`(terminal, action)` pairs. -/
def actionPairs : List Int → List (Int × Int)
  | t :: a :: rest => (t, a) :: actionPairs rest
  | _ => []

theorem anyReduceScan_eq_find : (l : List Int) →
    anyReduceScan l = (((actionPairs l).map Prod.snd).find? (fun a => a > 0)).getD 0
  | [] => rfl
  | [_] => rfl
  | t :: a :: rest => by
    simp only [anyReduceScan, actionPairs, List.map_cons, List.find?_cons]
    by_cases h : a > 0
    · simp [h]
    · simp only [if_neg h]
      rw [anyReduceScan_eq_find rest]
      simp [h]

/-- C8: `ParseState.anyReduce` returns `alwaysReduce` when `alwaysReduce`
is non-negative; otherwise it returns the first positive action value
found scanning the `(terminal, action)` pairs of `actions` in order, and
`0` when no reduce exists. -/
theorem c8_anyReduce (s : ParseState) :
    (s.alwaysReduce ≥ 0 → s.anyReduce = s.alwaysReduce) ∧
    (s.alwaysReduce < 0 →
      s.anyReduce = (((actionPairs s.actions).map Prod.snd).find? (fun a => a > 0)).getD 0) := by
  constructor
  · intro h
    simp [ParseState.anyReduce, h]
  · intro h
    have : ¬ s.alwaysReduce ≥ 0 := by omega
    simp [ParseState.anyReduce, this, anyReduceScan_eq_find]

theorem c8_anyReduce_witness :
    (ParseState.mk 0 [10, 3, 11, -4, 12, 5] [] [] (-1) (-1)).anyReduce = 3 ∧
    (ParseState.mk 1 [10, -2] [] [] 7 (-1)).anyReduce = 7 := by
  constructor
  · have h := (c8_anyReduce (ParseState.mk 0 [10, 3, 11, -4, 12, 5] [] [] (-1) (-1))).2
      (by decide)
    rw [h]; rfl
  · have h := (c8_anyReduce (ParseState.mk 1 [10, -2] [] [] 7 (-1))).1 (by decide)
    rw [h]

/-! ## TagMap (second part of `src/token.ts`)

`TagMap.content` is an array with one entry per parser tag; the
constructor fills it from a string-keyed record.  `JSON.parse` applied to
a quoted, escape-free tag name just strips the surrounding quotes, which
is how `jsonUnquote` models it. -/

structure TagMap (T : Type) where
  content : List (Option T)

/-- Tag names are JavaScript strings; they are modelled as their character
sequences. -/
abbrev TagName := List Char

/-- `JSON.parse(tag)` for a quoted, escape-free tag name: strip the
surrounding double quotes. -/
def jsonUnquote (s : TagName) : TagName := (s.drop 1).dropLast

/-- `Object.prototype.hasOwnProperty.call(values, key) ? values[key] : ...`
over a record modelled as an association list. -/
def lookupAssoc {T : Type} (values : List (TagName × T)) (key : TagName) : Option T :=
  (values.find? (fun p => p.1 = key)).map Prod.snd

/-- The per-tag lookup performed by the `TagMap` constructor: the value
stored under the tag's name, else — for a tag whose first character is
`"` — the value stored under its unquoted name, else `null`. -/
def tagValue {T : Type} (values : List (TagName × T)) (tag : TagName) : Option T :=
  match lookupAssoc values tag with
  | some v => some v
  | none => if tag.head? = some '"' then lookupAssoc values (jsonUnquote tag) else none

/-- The `TagMap` constructor: push the looked-up value (or `null`) for
each of `parser.tags` in order. -/
def TagMap.make {T : Type} (tags : List TagName) (values : List (TagName × T)) : TagMap T :=
  ⟨tags.map (tagValue values)⟩

/-- `TagMap.get`: `return tag & 1 ? this.content[tag >> 1] : null`.
An out-of-range index reads `undefined`, i.e. `none`. -/
def TagMap.get {T : Type} (m : TagMap T) (tag : Nat) : Option T :=
  if tag % 2 = 1 then m.content.getD (tag / 2) none else none

/-- C10: for every `TagMap` and every term id whose low (tagged) bit is 0,
`TagMap.get` returns `null` regardless of the tags and values the map was
constructed from; for a term id with the low bit set it returns the entry
stored at index `id >> 1`, i.e. the constructor's lookup result for the
tag name at that index, and `null` when the index is out of range. -/
theorem c10_tagMap_get {T : Type} (tags : List TagName) (values : List (TagName × T)) (term : Nat) :
    (term % 2 = 0 → (TagMap.make tags values).get term = none) ∧
    (term % 2 = 1 → (TagMap.make tags values).get term =
      (tags[term / 2]?.bind (tagValue values))) := by
  constructor
  · intro h
    have : term % 2 ≠ 1 := by omega
    simp [TagMap.get, this]
  · intro h
    simp only [TagMap.get, if_pos h, TagMap.make, List.getD_eq_getElem?_getD,
      List.getElem?_map]
    cases hx : tags[term / 2]? with
    | none => simp
    | some tag => simp

theorem c10_tagMap_get_witness :
    (TagMap.make [['a'], ['"', '+', '"']] [([Char.ofNat 97], (10 : Nat)), ([Char.ofNat 43], 20)]).get 2 = none ∧
    (TagMap.make [['a'], ['"', '+', '"']] [([Char.ofNat 97], (10 : Nat)), ([Char.ofNat 43], 20)]).get 1 = some 10 ∧
    (TagMap.make [['a'], ['"', '+', '"']] [([Char.ofNat 97], (10 : Nat)), ([Char.ofNat 43], 20)]).get 3 = some 20 := by
  refine ⟨(c10_tagMap_get _ _ 2).1 (by decide), ?_, ?_⟩
  · rw [(c10_tagMap_get [['a'], ['"', '+', '"']]
      [([Char.ofNat 97], (10 : Nat)), ([Char.ofNat 43], 20)] 1).2 (by decide)]
    decide
  · rw [(c10_tagMap_get [['a'], ['"', '+', '"']]
      [([Char.ofNat 97], (10 : Nat)), ([Char.ofNat 43], 20)] 3).2 (by decide)]
    decide

/-! ## Tokenizer DFA edge search (`readToken` in `src/token.ts`)

A tokenizer state's outgoing edges live in the flat `u16` table as
`(from, toExclusive, nextState)` triples starting at `accEnd`; edge `i`
occupies indices `accEnd + 3*i .. accEnd + 3*i + 2`.  `readToken` binary
searches them for the next input character. -/

def edgeLow (data : List Nat) (accEnd i : Nat) : Int := data.getD (accEnd + 3 * i) 0
def edgeHigh (data : List Nat) (accEnd i : Nat) : Int := data.getD (accEnd + 3 * i + 1) 0
def edgeTarget (data : List Nat) (accEnd i : Nat) : Nat := data.getD (accEnd + 3 * i + 2) 0

/-- The binary-search loop of `readToken`
(`for (let next = input.next, low = 0, high = data[state + 2]; low < high;)`):
returns the target state of the matched edge (after which `readToken` sets
`state` and calls `input.advance()`), or `none` when the loop exits with no
match, which makes the outer `scan` loop terminate. -/
def searchEdge (data : List Nat) (accEnd : Nat) (next : Int) (low high : Nat) : Option Nat :=
  if _h : low < high then
    let mid := (low + high) / 2
    let index := accEnd + mid + 2 * mid
    let frm : Int := data.getD index 0
    let toEx : Int := data.getD (index + 1) 0
    if next < frm then searchEdge data accEnd next low mid
    else if next ≥ toEx then searchEdge data accEnd next (mid + 1) high
    else some (data.getD (index + 2) 0)
  else none
termination_by high - low
decreasing_by
  all_goals omega

/-- The linear scan the binary search refines: try the edges in order and
take the first whose character range contains `next`. -/
def linearEdge (data : List Nat) (accEnd : Nat) (next : Int) (i n : Nat) : Option Nat :=
  if _h : i < n then
    if edgeLow data accEnd i ≤ next ∧ next < edgeHigh data accEnd i
    then some (edgeTarget data accEnd i)
    else linearEdge data accEnd next (i + 1) n
  else none
termination_by n - i

section EdgeSearch

variable (data : List Nat) (accEnd : Nat) (next : Int) (n : Nat)

/-- Edge `i` matches the character `next`. -/
abbrev edgeMatch (i : Nat) : Prop :=
  edgeLow data accEnd i ≤ next ∧ next < edgeHigh data accEnd i

/-- With sorted, non-overlapping edges at most one edge matches. -/
theorem edgeMatch_unique
    (hsort : ∀ i j, i < j → j < n → edgeHigh data accEnd i ≤ edgeLow data accEnd j)
    {i j : Nat} (hi : i < n) (hj : j < n)
    (mi : edgeMatch data accEnd next i) (mj : edgeMatch data accEnd next j) : i = j := by
  rcases Nat.lt_trichotomy i j with h | h | h
  · exact absurd (lt_of_le_of_lt (le_trans (hsort i j h hj) mj.1) mi.2) (lt_irrefl _)
  · exact h
  · exact absurd (lt_of_le_of_lt (le_trans (hsort j i h hi) mi.1) mj.2) (lt_irrefl _)

theorem searchEdge_spec
    (hwf : ∀ i, i < n → edgeLow data accEnd i ≤ edgeHigh data accEnd i)
    (hsort : ∀ i j, i < j → j < n → edgeHigh data accEnd i ≤ edgeLow data accEnd j) :
    ∀ fuel low high, high - low ≤ fuel → high ≤ n →
      ((∃ i, low ≤ i ∧ i < high ∧ edgeMatch data accEnd next i ∧
          searchEdge data accEnd next low high = some (edgeTarget data accEnd i)) ∨
        (searchEdge data accEnd next low high = none ∧
          ∀ i, low ≤ i → i < high → ¬ edgeMatch data accEnd next i)) := by
  intro fuel
  induction fuel with
  | zero =>
    intro low high hle _
    have h : ¬ low < high := by omega
    right
    rw [searchEdge]
    simp only [dif_neg h]
    exact ⟨trivial, fun i h1 h2 => absurd (lt_of_le_of_lt h1 h2) h⟩
  | succ fuel ih =>
    intro low high hle hn
    by_cases h : low < high
    case neg =>
      right
      rw [searchEdge]
      simp only [dif_neg h]
      exact ⟨trivial, fun i h1 h2 => absurd (lt_of_le_of_lt h1 h2) h⟩
    case pos =>
      set mid := (low + high) / 2 with hmid
      have hmlt : mid < high := by omega
      have hmge : low ≤ mid := by omega
      have hidx : accEnd + mid + 2 * mid = accEnd + 3 * mid := by ring
      have hfrm : (data.getD (accEnd + mid + 2 * mid) 0 : Int) = edgeLow data accEnd mid := by
        rw [hidx]; rfl
      have hto : (data.getD (accEnd + mid + 2 * mid + 1) 0 : Int) = edgeHigh data accEnd mid := by
        rw [hidx]; rfl
      have htg : data.getD (accEnd + mid + 2 * mid + 2) 0 = edgeTarget data accEnd mid := by
        rw [hidx]; rfl
      rw [searchEdge]
      simp only [dif_pos h, ← hmid, hfrm, hto, htg]
      by_cases h1 : next < edgeLow data accEnd mid
      case pos =>
        simp only [if_pos h1]
        rcases ih low mid (by omega) (by omega) with ⟨i, hi1, hi2, hm, hs⟩ | ⟨hs, hnone⟩
        · exact Or.inl ⟨i, hi1, by omega, hm, hs⟩
        · right
          refine ⟨hs, fun i hge hlt hm => ?_⟩
          by_cases hcase : i < mid
          · exact hnone i hge hcase hm
          · have : edgeLow data accEnd mid ≤ edgeLow data accEnd i := by
              by_cases heq : i = mid
              · rw [heq]
              · exact le_trans (hwf mid (by omega)) (hsort mid i (by omega) (by omega))
            exact absurd (lt_of_lt_of_le h1 (le_trans this hm.1)) (by simp)
      case neg =>
        simp only [if_neg h1]
        by_cases h2 : next ≥ edgeHigh data accEnd mid
        case pos =>
          simp only [if_pos h2]
          rcases ih (mid + 1) high (by omega) hn with ⟨i, hi1, hi2, hm, hs⟩ | ⟨hs, hnone⟩
          · exact Or.inl ⟨i, by omega, hi2, hm, hs⟩
          · right
            refine ⟨hs, fun i hge hlt hm => ?_⟩
            by_cases hcase : mid + 1 ≤ i
            · exact hnone i hcase hlt hm
            · have : edgeHigh data accEnd i ≤ edgeHigh data accEnd mid := by
                by_cases heq : i = mid
                · rw [heq]
                · exact le_trans (hsort i mid (by omega) (by omega)) (hwf mid (by omega))
              exact absurd (lt_of_lt_of_le (lt_of_lt_of_le hm.2 this) h2) (by simp)
        case neg =>
          simp only [if_neg h2]
          exact Or.inl ⟨mid, hmge, hmlt, ⟨by omega, by omega⟩, rfl⟩

theorem linearEdge_spec :
    ∀ fuel i, n - i ≤ fuel →
      ((∃ j, i ≤ j ∧ j < n ∧ edgeMatch data accEnd next j ∧
          linearEdge data accEnd next i n = some (edgeTarget data accEnd j) ∧
          (∀ k, i ≤ k → k < j → ¬ edgeMatch data accEnd next k)) ∨
        (linearEdge data accEnd next i n = none ∧
          ∀ j, i ≤ j → j < n → ¬ edgeMatch data accEnd next j)) := by
  intro fuel
  induction fuel with
  | zero =>
    intro i hle
    have h : ¬ i < n := by omega
    right
    rw [linearEdge]
    simp only [dif_neg h]
    exact ⟨trivial, fun j h1 h2 => absurd (lt_of_le_of_lt h1 h2) h⟩
  | succ fuel ih =>
    intro i hle
    by_cases h : i < n
    case neg =>
      right
      rw [linearEdge]
      simp only [dif_neg h]
      exact ⟨trivial, fun j h1 h2 => absurd (lt_of_le_of_lt h1 h2) h⟩
    case pos =>
      rw [linearEdge]
      simp only [dif_pos h]
      by_cases hm : edgeLow data accEnd i ≤ next ∧ next < edgeHigh data accEnd i
      case pos =>
        simp only [if_pos hm]
        exact Or.inl ⟨i, le_refl i, h, hm, rfl, fun k h1 h2 => by omega⟩
      case neg =>
        simp only [if_neg hm]
        rcases ih (i + 1) (by omega) with ⟨j, hj1, hj2, hjm, hs, hfirst⟩ | ⟨hs, hnone⟩
        · refine Or.inl ⟨j, by omega, hj2, hjm, hs, fun k h1 h2 => ?_⟩
          by_cases hk : k = i
          · rw [hk]; exact hm
          · exact hfirst k (by omega) h2
        · right
          refine ⟨hs, fun j h1 h2 hjm => ?_⟩
          by_cases hj : j = i
          · rw [hj] at hjm; exact hm hjm
          · exact hnone j (by omega) h2 hjm

/-- C9: for sorted, non-overlapping edge lists, the binary search of
`readToken` over the `(from, toExclusive, nextState)` triples finds a
target state `t` (after which `readToken` transitions to `t` and advances
the input) if and only if some edge with `from ≤ next < toExclusive` and
that target exists; it agrees with a linear scan of the edge list, and
when no edge matches it returns `none`, terminating the scan loop. -/
theorem c9_searchEdge (data : List Nat) (accEnd : Nat) (next : Int) (n : Nat)
    (hwf : ∀ i, i < n → edgeLow data accEnd i ≤ edgeHigh data accEnd i)
    (hsort : ∀ i j, i < j → j < n → edgeHigh data accEnd i ≤ edgeLow data accEnd j) :
    searchEdge data accEnd next 0 n = linearEdge data accEnd next 0 n ∧
    (∀ t, searchEdge data accEnd next 0 n = some t ↔
      ∃ i, i < n ∧ edgeLow data accEnd i ≤ next ∧ next < edgeHigh data accEnd i ∧
        edgeTarget data accEnd i = t) ∧
    (searchEdge data accEnd next 0 n = none ↔
      ∀ i, i < n → ¬ (edgeLow data accEnd i ≤ next ∧ next < edgeHigh data accEnd i)) := by
  have hbin := searchEdge_spec data accEnd next n hwf hsort n 0 n (by omega) (le_refl n)
  have hlin := linearEdge_spec data accEnd next n n 0 (by omega)
  refine ⟨?_, ?_, ?_⟩
  · rcases hbin with ⟨i, _, hi2, him, his⟩ | ⟨hs, hnone⟩
    · rcases hlin with ⟨j, _, hj2, hjm, hjs, _⟩ | ⟨_, hnone⟩
      · have := edgeMatch_unique data accEnd next n hsort hi2 hj2 him hjm
        rw [his, hjs, this]
      · exact absurd him (hnone i (by omega) hi2)
    · rcases hlin with ⟨j, _, hj2, hjm, _, _⟩ | ⟨hls, _⟩
      · exact absurd hjm (hnone j (by omega) hj2)
      · rw [hs, hls]
  · intro t
    constructor
    · intro hsome
      rcases hbin with ⟨i, _, hi2, him, his⟩ | ⟨hs, _⟩
      · rw [his] at hsome
        exact ⟨i, hi2, him.1, him.2, Option.some_inj.mp hsome⟩
      · rw [hs] at hsome; exact absurd hsome (by simp)
    · rintro ⟨i, hi, h1, h2, ht⟩
      rcases hbin with ⟨j, _, hj2, hjm, hjs⟩ | ⟨_, hnone⟩
      · have := edgeMatch_unique data accEnd next n hsort hi hj2 ⟨h1, h2⟩ hjm
        rw [hjs, ← this, ht]
      · exact absurd (⟨h1, h2⟩ : edgeMatch data accEnd next i) (hnone i (by omega) hi)
  · constructor
    · intro hnone i hi
      rcases hbin with ⟨j, _, hj2, hjm, hjs⟩ | ⟨_, hn⟩
      · rw [hjs] at hnone; exact absurd hnone (by simp)
      · exact hn i (by omega) hi
    · intro hall
      rcases hbin with ⟨j, _, hj2, hjm, _⟩ | ⟨hs, _⟩
      · exact absurd hjm (hall j hj2)
      · exact hs

theorem c9_searchEdge_witness :
    searchEdge [9, 9, 9, 48, 58, 7, 97, 123, 8] 3 (100 : Int) 0 2 =
      linearEdge [9, 9, 9, 48, 58, 7, 97, 123, 8] 3 (100 : Int) 0 2 ∧
    searchEdge [9, 9, 9, 48, 58, 7, 97, 123, 8] 3 (100 : Int) 0 2 = some 8 := by
  have h := c9_searchEdge [9, 9, 9, 48, 58, 7, 97, 123, 8] 3 (100 : Int) 2
    (by intro i hi; interval_cases i <;> decide)
    (by
      intro i j hij hj
      have hj1 : j = 1 := by omega
      subst hj1
      have hi0 : i = 0 := by omega
      subst hi0
      decide)
  refine ⟨h.1, ?_⟩
  exact ((h.2.1 8).mpr ⟨1, by omega, by decide, by decide, by decide⟩)

end EdgeSearch

/-! ## Tree / TreeBuffer / Context (second part of `src/token.ts`)

`Tree` holds parallel `children`/`positions` arrays, modelled as the
interleaved `ChildList`; `Node` is the tagged/length-carrying subclass and
`TreeBuffer` the packed quad array, so a syntax tree value is one of the
three shapes.  Positions and lengths are `Int` (JS numbers; the offset
arithmetic of `partial`/`unchanged` runs below zero). -/

structure ChangedRange where
  fromA : Nat
  toA : Nat
  fromB : Nat
  toB : Nat
deriving Repr, DecidableEq

mutual
inductive SyntaxT where
  | tree (children : ChildList)
  | node (tag : Nat) (len : Int) (children : ChildList)
  | buffer (buf : List Nat)
deriving Repr, DecidableEq
inductive ChildList where
  | nil
  | cons (child : SyntaxT) (posn : Int) (rest : ChildList)
deriving Repr, DecidableEq
end

mutual
/-- `Tree.length` (`positions[last] + children[last].length`, `0` when
empty), `Node.length` (the stored `_length`) and `TreeBuffer.length`
(`buffer[buffer.length - 2]`). -/
def SyntaxT.length : SyntaxT → Int
  | .tree cs => cs.lastPosLen
  | .node _ len _ => len
  | .buffer buf => (buf.getD (buf.length - 2) 0 : Int)
/-- `positions[last] + children[last].length` over the interleaved list. -/
def ChildList.lastPosLen : ChildList → Int
  | .nil => 0
  | .cons c p .nil => p + c.length
  | .cons _ _ (ChildList.cons c p r) => ChildList.lastPosLen (.cons c p r)
end

mutual
/-- `Tree.partial` / `Node.partial` / `TreeBuffer.partial`: the source
pushes retained subtrees into the `children`/`positions` output arrays;
the model returns the extended list of `(subtree, position)` pairs. -/
def collectPart (t : SyntaxT) (start «end» offset : Int)
    (acc : List (SyntaxT × Int)) : List (SyntaxT × Int) :=
  match t with
  | .tree cs => collectPartList cs start «end» offset acc
  | .node tag len cs =>
    if start ≤ 0 ∧ «end» ≥ len then acc ++ [(SyntaxT.node tag len cs, offset)]
    else collectPartList cs start «end» offset acc
  | .buffer buf =>
    if start ≤ 0 ∧ «end» ≥ (SyntaxT.buffer buf).length
    then acc ++ [(SyntaxT.buffer buf, offset)] else acc
/-- The child loop of `Tree.partial`: `break` once a child starts at or
after `end`, recurse into children overlapping `(start, end)`. -/
def collectPartList (cs : ChildList) (start «end» offset : Int)
    (acc : List (SyntaxT × Int)) : List (SyntaxT × Int) :=
  match cs with
  | .nil => acc
  | .cons child frm rest =>
    if frm ≥ «end» then acc
    else
      let toPos := frm + child.length
      let acc' := if toPos > start
        then collectPart child (start - frm) («end» - frm) (offset + frm) acc
        else acc
      collectPartList rest start «end» offset acc'
end

/-- The `for (let i = 0, pos = 0, off = 0;; i++)` loop of
`Tree.unchanged`: collect the reusable subtrees of each unchanged span
`[pos, nextPos - 1)` (the source's `FIXME need a full token here`
one-character margin), then step `pos` to `toA` and accumulate the
coordinate offset. -/
def unchangedGo (t : SyntaxT) : List ChangedRange → Int → Int →
    List (SyntaxT × Int) → List (SyntaxT × Int)
  | [], pos, off, acc =>
    let nextPos : Int := t.length
    if nextPos > pos then collectPart t pos (nextPos - 1) off acc else acc
  | c :: rest, pos, off, acc =>
    let nextPos : Int := (c.fromA : Int)
    let acc' := if nextPos > pos then collectPart t pos (nextPos - 1) off acc else acc
    unchangedGo t rest (c.toA : Int)
      (off + (((c.toB : Int) - (c.fromB : Int)) - ((c.toA : Int) - (c.fromA : Int)))) acc'

def listToChildren : List (SyntaxT × Int) → ChildList
  | [] => .nil
  | (c, p) :: rest => .cons c p (listToChildren rest)

/-- `Tree.unchanged` (also entered on a `Node`, which inherits it) and
`TreeBuffer.unchanged` (`changes.length ? Tree.empty : this`). -/
def SyntaxT.unchanged (t : SyntaxT) (changes : List ChangedRange) : SyntaxT :=
  match t with
  | .buffer buf => if changes.length ≠ 0 then .tree .nil else .buffer buf
  | t =>
    if changes.length = 0 then t
    else .tree (listToChildren (unchangedGo t changes 0 0 []))

/-- C1: the spec requires a subtree to be retained only when its stored
`lookAhead` plus its start still lies inside the unchanged span, but the
tree representation stores no `lookAhead` at all and `Tree.unchanged`
(the source marks the spot `FIXME need a full token here`) retains every
subtree fitting `[pos, nextPos - 1]` purely geometrically: with a change
starting at `fromA = 3`, the node spanning `[0, 2)` is retained no matter
how far its tokenization looked ahead. -/
theorem c1_unchanged_no_lookahead :
    SyntaxT.unchanged (.tree (.cons (.node 3 2 .nil) 0 .nil)) [⟨3, 3, 3, 4⟩] =
      .tree (.cons (.node 3 2 .nil) 0 .nil) := by
  decide

/-! ### Positional resolution (`TreeContext` / `BufferContext`) -/

inductive Ctx where
  | treeC (t : SyntaxT) (start : Int) (parent : Option Ctx)
  | bufC (buf : List Nat) (bufferStart : Int) (index : Nat) (parent : Option Ctx)

/-- `TreeContext.start` / `BufferContext.start`
(`this.buffer.buffer[this.index + 1]` relative to `bufferStart`). -/
def Ctx.start : Ctx → Int
  | .treeC _ st _ => st
  | .bufC buf bst idx _ => bst + (buf.getD (idx + 1) 0 : Int)

/-- `TreeContext.end` (`start + tree.length`) / `BufferContext.end`. -/
def Ctx.endPos : Ctx → Int
  | .treeC t st _ => st + t.length
  | .bufC buf bst idx _ => bst + (buf.getD (idx + 2) 0 : Int)

/-- `TreeContext.type` (`tree instanceof Node ? tree.tag : -1`) /
`BufferContext.type`. -/
def Ctx.type : Ctx → Int
  | .treeC t _ _ => match t with | .node tag _ _ => (tag : Int) | _ => -1
  | .bufC buf _ idx _ => (buf.getD idx 0 : Int)

/-- Does the context have a parent (`null` for the root)? -/
def Ctx.hasParent : Ctx → Bool
  | .treeC _ _ par => par.isSome
  | .bufC _ _ _ par => par.isSome

/-- `BufferContext.resolveIndex`, translated faithfully: note that the
loop header's `i++` runs on top of the body's `i += 4 + (buf[i+3] << 2)`,
so after a quad that does not contain `pos` the scan advances by
`5 + 4*childCount` positions.  The first argument counts the remaining
loop iterations down; `resolveIndex` hands it `toIdx - i`, which is ample
because `i` grows by at least 5 per iteration, and when it would run out
`i` is already `≥ toIdx`, so returning `-1` agrees with the loop exit. -/
def resolveIndexGo (buf : List Nat) (start pos : Int) : Nat → Nat → Nat → Int
  | 0, _, _ => -1
  | fuel + 1, i, toIdx =>
    if i < toIdx then
      let start1 : Int := (buf.getD (i + 1) 0 : Int) + start
      if start1 ≥ pos then -1
      else
        let end1 : Int := (buf.getD (i + 2) 0 : Int) + start
        if end1 > pos then (i : Int)
        else resolveIndexGo buf start pos fuel (i + 4 + 4 * buf.getD (i + 3) 0 + 1) toIdx
    else -1

/-- `BufferContext.resolveIndex(pos, buffer, start, from, to)`. -/
def resolveIndex (buf : List Nat) (start pos : Int) (i toIdx : Nat) : Int :=
  resolveIndexGo buf start pos (toIdx - i) i toIdx

def childrenOf : SyntaxT → ChildList
  | .tree cs => cs
  | .node _ _ cs => cs
  | .buffer _ => .nil

mutual
/-- `TreeContext.resolve` / `BufferContext.resolve`.  The `fuel` counter
only bounds the recursion depth (the source's recursion moves up the
finite parent chain or down into strictly smaller subtrees, so it always
terminates); `SyntaxT.resolve` passes more fuel than can be consumed. -/
def resolveCtx : Nat → Ctx → Int → Ctx
  | 0, c, _ => c
  | fuel + 1, c, pos =>
    match c with
    | .treeC t tstart par =>
      if pos ≤ Ctx.start (.treeC t tstart par) ∨ pos ≥ Ctx.endPos (.treeC t tstart par) then
        match par with
        | some p => resolveCtx fuel p pos
        | none => .treeC t tstart par
      else resolveChildren fuel (childrenOf t) tstart pos (.treeC t tstart par)
    | .bufC buf bst idx par =>
      if pos ≤ Ctx.start (.bufC buf bst idx par) ∨ pos ≥ Ctx.endPos (.bufC buf bst idx par) then
        match par with
        | some p => resolveCtx fuel p pos
        | none => .bufC buf bst idx par
      else
        let found := resolveIndex buf bst pos (idx + 4) (idx + 4 + 4 * buf.getD (idx + 3) 0)
        if found < 0 then .bufC buf bst idx par
        else .bufC buf bst found.toNat (some (.bufC buf bst idx par))
/-- The child loop of `TreeContext.resolve`: `break` when a child starts
at or past `pos`; descend into a `Node` child containing `pos`; look up a
`TreeBuffer` child via `resolveIndex` and wrap the found quad.  (The
`children` arrays have type `(Node | TreeBuffer)[]`, so a plain `Tree`
child cannot occur; the model skips it like a non-match.) -/
def resolveChildren : Nat → ChildList → Int → Int → Ctx → Ctx
  | 0, _, _, _, self => self
  | fuel + 1, cs, tstart, pos, self =>
    match cs with
    | .nil => self
    | .cons child frm rest =>
      let start := frm + tstart
      if start ≥ pos then self
      else
        let endP := start + child.length
        if endP > pos then
          match child with
          | .node tag len ch => resolveCtx fuel (.treeC (.node tag len ch) start (some self)) pos
          | .buffer buf =>
            let found := resolveIndex buf start pos 0 buf.length
            if found > -1 then .bufC buf start found.toNat (some self)
            else resolveChildren fuel rest tstart pos self
          | .tree _ => resolveChildren fuel rest tstart pos self
        else resolveChildren fuel rest tstart pos self
end

mutual
/-- Number of constructors of a syntax tree (fuel bound for `resolve`). -/
def SyntaxT.size : SyntaxT → Nat
  | .tree cs => 1 + cs.size
  | .node _ _ cs => 1 + cs.size
  | .buffer _ => 1
def ChildList.size : ChildList → Nat
  | .nil => 1
  | .cons c _ r => 1 + c.size + r.size
end

/-- `Tree.resolve(pos)`: `new TreeContext(this, 0, null).resolve(pos)`.
From a fresh root every recursive call descends (the boundary check that
re-resolves in the parent can only fire at the root, which has none), so
`2 * size + 2` fuel can never be exhausted. -/
def SyntaxT.resolve (t : SyntaxT) (pos : Int) : Ctx :=
  resolveCtx (2 * t.size + 2) (.treeC t 0 none) pos

/-- Independent description of a `TreeBuffer`'s quads: quads are laid out
at indices `0, 4, 8, ...` as `(tag, relStart, relEnd, childCount)`; this
asks for a tagged (odd-tag) quad whose range strictly contains `pos`. -/
def taggedQuadStrictlyContaining (buf : List Nat) (bufStart pos : Int) : Prop :=
  ∃ k < (buf.length + 3) / 4, buf.getD (4 * k) 0 % 2 = 1 ∧
    bufStart + (buf.getD (4 * k + 1) 0 : Int) < pos ∧
    pos < bufStart + (buf.getD (4 * k + 2) 0 : Int)

/-- C2: `Tree.resolve` is supposed to return the innermost tagged node
containing `pos`, but `BufferContext.resolveIndex`'s scan is misaligned
(it advances `5 + 4*childCount` indices per skipped quad instead of
`4 + 4*childCount`), so on the buffer holding the quads `(5,[0,2))` and
`(7,[2,5))` it reads index 6 as the next quad's start, breaks, and
`resolve(3)` falls back to the root context (type `-1`) even though the
tagged node `7` spans `[2, 5) ∋ 3`. -/
theorem c2_resolve_misaligned :
    Ctx.type (SyntaxT.resolve (.tree (.cons (.buffer [5, 0, 2, 0, 7, 2, 5, 0]) 0 .nil)) 3) = -1 ∧
    Ctx.start (SyntaxT.resolve (.tree (.cons (.buffer [5, 0, 2, 0, 7, 2, 5, 0]) 0 .nil)) 3) = 0 ∧
    Ctx.endPos (SyntaxT.resolve (.tree (.cons (.buffer [5, 0, 2, 0, 7, 2, 5, 0]) 0 .nil)) 3) = 5 ∧
    Ctx.hasParent (SyntaxT.resolve (.tree (.cons (.buffer [5, 0, 2, 0, 7, 2, 5, 0]) 0 .nil)) 3) = false ∧
    taggedQuadStrictlyContaining [5, 0, 2, 0, 7, 2, 5, 0] 0 3 := by
  refine ⟨by decide, by decide, by decide, by decide, ⟨1, by decide, by decide, by decide, by decide⟩⟩

/-! ## InputStream (`src/token.ts`)

The stream state is embedded field by field.  The underlying `Input` is
the code-unit list `text` together with the host's chunking policy: the
source only requires `Input.chunk(pos)` to return a non-empty substring
starting at `pos`, so the model carries a function `chunkLen` and lets
`Input.chunk(pos)` be the first `chunkLen pos + 1` code units from `pos`
(non-empty whenever `pos < text.length`).  The active `CachedToken` is
represented by its `lookAhead` field, the only one the claims concern.
JavaScript's `charCodeAt` out of range only happens in states that are
unreachable for well-formed streams and is modelled as `-1`. -/

structure InputGap where
  «from» : Nat
  «to» : Nat
deriving Repr, DecidableEq

structure InputStream where
  text : List Nat
  chunkLen : Nat → Nat
  start : Nat
  «end» : Nat
  gaps : List InputGap
  pos : Nat
  chunk : List Nat
  chunkPos : Nat
  chunkOff : Nat
  chunk2 : List Nat
  chunk2Pos : Nat
  next : Int
  lookAhead : Int

/-- `str.charCodeAt(i)`, `-1` out of range (see the module comment). -/
def charCode (l : List Nat) (i : Nat) : Int :=
  match l[i]? with
  | some c => (c : Int)
  | none => -1

/-- The forward loop of `resolvePos` (`for (let gap of this.gaps)`):
stop at the first gap starting beyond `pos + offset`, widen `offset` by
the size of each gap lying after `pos`. -/
def resolvePosFwd : List InputGap → Int → Int → Int
  | [], pos, offset => pos + offset
  | g :: rest, pos, offset =>
    if pos + offset < (g.«from» : Int) then pos + offset
    else resolvePosFwd rest pos
      (if (g.«from» : Int) > pos then offset + ((g.«to» : Int) - (g.«from» : Int)) else offset)

/-- The backward loop of `resolvePos`
(`for (let i = this.gaps.length - 1; i >= 0; i--)`), iterating the gaps
from the last down, translated faithfully: the loop breaks when
`gap.to <= pos - offset`. -/
def resolvePosBwd : List InputGap → Int → Int → Int
  | [], pos, offset => pos + offset
  | g :: rest, pos, offset =>
    if (g.«to» : Int) ≤ pos - offset then pos + offset
    else resolvePosBwd rest pos
      (if (g.«to» : Int) ≤ pos then offset - ((g.«to» : Int) - (g.«from» : Int)) else offset)

/-- `InputStream.resolvePos`. -/
def InputStream.resolvePos (s : InputStream) (pos offset : Int) : Int :=
  if s.gaps = [] ∨ offset = 0 then pos + offset
  else if offset < 0 then resolvePosBwd s.gaps.reverse pos offset
  else resolvePosFwd s.gaps pos offset

/-- `Input.chunk(p)` under the stream's chunking policy. -/
def InputStream.inputChunkAt (s : InputStream) (p : Nat) : List Nat :=
  (s.text.drop p).take (s.chunkLen p + 1)

/-- The loop of `removeGapsFromChunk`.  Its mutable state is the chunk,
`from`, and `pos`/`chunkPos` (always set together, and equal to `from`
whenever they are written); `to` stays the chunk's original end.  The
outcome is either `return true` with the final chunk and position
(`Sum.inl`), or the tail call `this.getChunk()` after the whole chunk
fell into a gap, at the position to refetch from (`Sum.inr`). -/
def stripGaps : List InputGap → List Nat → Nat → Nat → (List Nat × Nat) ⊕ Nat
  | [], chunk, frm, _ => Sum.inl (chunk, frm)
  | g :: rest, chunk, frm, toPos =>
    if toPos ≤ g.«from» then Sum.inl (chunk, frm)
    else if frm < g.«to» then
      if frm < g.«from» then Sum.inl (chunk.take (g.«from» - frm), frm)
      else if g.«to» < toPos then
        stripGaps rest (chunk.drop (g.«to» - frm)) g.«to» toPos
      else Sum.inr g.«to»
    else stripGaps rest chunk frm toPos

/-- `getChunk` (with `removeGapsFromChunk` folded in through `stripGaps`):
serve from `chunk2` when it covers `pos`; fail with `next = -1` at or past
`end`; otherwise rotate the chunks, fetch from the input, truncate against
`end`, and strip gaps — refetching (the recursive `getChunk()` call) when
the chunk began inside a gap and was consumed by it.  The fuel counts the
refetches; `InputStream.getChunk` passes `gaps.length + 1`, which is ample
because every refetch jumps `pos` to the `to` of a later gap. -/
def getChunkGo : Nat → InputStream → Bool × InputStream
  | 0, s => (false, s)
  | fuel + 1, s =>
    if s.chunk2Pos ≤ s.pos ∧ s.pos < s.chunk2Pos + s.chunk2.length then
      (true, { s with chunk := s.chunk2, chunkPos := s.chunk2Pos,
                      chunk2 := s.chunk, chunk2Pos := s.chunkPos,
                      chunkOff := s.pos - s.chunk2Pos })
    else if s.«end» ≤ s.pos then
      (false, { s with next := -1, chunk := [], chunkOff := 0 })
    else
      let nextChunk := s.inputChunkAt s.pos
      let e := s.pos + nextChunk.length
      let s' := { s with chunk2 := s.chunk, chunk2Pos := s.chunkPos,
                         chunk := if s.«end» < e then nextChunk.take (s.«end» - s.pos)
                                  else nextChunk,
                         chunkPos := s.pos, chunkOff := 0 }
      if s'.gaps = [] then (true, s')
      else
        match stripGaps s'.gaps s'.chunk s'.pos (s'.pos + s'.chunk.length) with
        | Sum.inl (c, p) => (true, { s' with chunk := c, pos := p, chunkPos := p })
        | Sum.inr p => getChunkGo fuel { s' with chunk := [], pos := p, chunkPos := p }

def InputStream.getChunk (s : InputStream) : Bool × InputStream :=
  getChunkGo (s.gaps.length + 1) s

/-- `readNext`: refill the chunk when exhausted, then load
`chunk.charCodeAt(chunkOff)` into `next` (unless `getChunk` failed, which
already set `next = -1`). -/
def InputStream.readNext (s : InputStream) : InputStream :=
  if s.chunkOff = s.chunk.length then
    match s.getChunk with
    | (false, s') => s'
    | (true, s') => { s' with next := charCode s'.chunk s'.chunkOff }
  else { s with next := charCode s.chunk s.chunkOff }

/-- One iteration of the `advance` loop (entered with `next ≥ 0`):
`chunkOff++; pos++;` raise `token.lookAhead` to the new position if it
exceeds it, then `readNext()`. -/
def InputStream.advanceStep (s : InputStream) : InputStream :=
  InputStream.readNext
    { s with chunkOff := s.chunkOff + 1, pos := s.pos + 1,
             lookAhead := if ((s.pos + 1 : Nat) : Int) > s.lookAhead
                          then ((s.pos + 1 : Nat) : Int) else s.lookAhead }

/-- `InputStream.advance(n)`: run `n` iterations, stopping with `-1` when
`next < 0`; returns the final `next` and the updated stream. -/
def InputStream.advance (s : InputStream) : Nat → Int × InputStream
  | 0 => (s.next, s)
  | n + 1 => if s.next < 0 then (-1, s) else s.advanceStep.advance n

/-- The input position a `peek(offset)` call inspects: the raw
`pos + offset` when the offset stays inside the cached chunk, and the
gap-resolved position otherwise — exactly the `pos` variable of the
source's `peek`. -/
def InputStream.peekInspected (s : InputStream) (offset : Int) : Int :=
  if 0 ≤ (s.chunkOff : Int) + offset ∧ (s.chunkOff : Int) + offset < s.chunk.length
  then (s.pos : Int) + offset
  else s.resolvePos (s.pos : Int) offset

/-- The code unit a `peek(offset)` call returns (the `result` variable of
the source's `peek`): the cached chunk unit when the offset stays inside
the chunk, else `-1` outside `[start, end)`, else
`input.read(pos, pos + 1)` at the gap-resolved position. -/
def InputStream.peekRead (s : InputStream) (offset : Int) : Int :=
  if 0 ≤ (s.chunkOff : Int) + offset ∧ (s.chunkOff : Int) + offset < s.chunk.length then
    charCode s.chunk ((s.chunkOff : Int) + offset).toNat
  else if s.resolvePos (s.pos : Int) offset < (s.start : Int) ∨
      (s.«end» : Int) ≤ s.resolvePos (s.pos : Int) offset then -1
  else charCode s.text (s.resolvePos (s.pos : Int) offset).toNat

/-- `InputStream.peek(offset)`: compute the inspected position and the
result along the same branch (`peekInspected`/`peekRead` factor the two
variables of the source's `peek`), raise `token.lookAhead` to the
inspected position when it exceeds it, and return the code unit with the
updated stream. -/
def InputStream.peek (s : InputStream) (offset : Int) : Int × InputStream :=
  (s.peekRead offset,
   if s.peekInspected offset > s.lookAhead
   then { s with lookAhead := s.peekInspected offset } else s)

/-- `InputStream.reset(pos, token)`: bind a fresh working token
(`token.start = token.lookAhead = pos`), and when the position changed,
move there, keeping the chunk when it covers the new position and
clearing it otherwise, then `readNext()`. -/
def InputStream.reset (s : InputStream) (pos : Nat) : InputStream :=
  if s.pos = pos then { s with lookAhead := (pos : Int) }
  else if s.chunkPos ≤ pos ∧ pos < s.chunkPos + s.chunk.length then
    InputStream.readNext
      { s with lookAhead := (pos : Int), pos := pos, chunkOff := pos - s.chunkPos }
  else
    InputStream.readNext
      { s with lookAhead := (pos : Int), pos := pos, chunk := [], chunkOff := 0 }

/-- The constructor: `pos = chunkPos = start`, empty chunks, then
`readNext()`.  An empty gap array is stored as `null`, which the empty
list of the model represents. -/
def mkStream (text : List Nat) (chunkLen : Nat → Nat) (start «end» : Nat)
    (gaps : List InputGap) : InputStream :=
  InputStream.readNext
    { text := text, chunkLen := chunkLen, start := start, «end» := «end», gaps := gaps,
      pos := start, chunk := [], chunkPos := start, chunkOff := 0,
      chunk2 := [], chunk2Pos := 0, next := -1, lookAhead := 0 }

/-- The gap-removal loop of `read` (`for (let i = this.gaps.length - 1;
i >= 0; i--)`), iterating the gaps from the last down on the raw slice:
`val = val.slice(0, Math.max(0, g.from - from)) +
val.slice(Math.min(val.length, g.to - from))` for each overlapping gap. -/
def readGapsLoop : List InputGap → Nat → Nat → List Nat → List Nat
  | [], _, _, val => val
  | g :: rest, frm, toPos, val =>
    readGapsLoop rest frm toPos
      (if frm < g.«to» ∧ g.«from» < toPos
       then val.take (g.«from» - frm) ++ val.drop (min val.length (g.«to» - frm))
       else val)

/-- `InputStream.read(from, to)`: serve the raw text from the cached
chunk when it covers the range, else from the input, then remove each
overlapping gap's content. -/
def InputStream.read (s : InputStream) (frm toPos : Nat) : List Nat :=
  let val := if s.chunkPos ≤ frm ∧ toPos ≤ s.chunkPos + s.chunk.length
    then (s.chunk.drop (frm - s.chunkPos)).take (toPos - frm)
    else (s.text.drop frm).take (toPos - frm)
  if s.gaps = [] then val else readGapsLoop s.gaps.reverse frm toPos val

/-! ### Stream well-formedness -/

/-- Position `p` lies inside gap `g` (`[from, to)` half-open). -/
abbrev inGap (g : InputGap) (p : Nat) : Prop := g.«from» ≤ p ∧ p < g.«to»

/-- The ordering of a sorted, non-overlapping gap list. -/
abbrev gapLe (a b : InputGap) : Prop := a.«to» ≤ b.«from»

/-- Well-formed gap configuration: sorted and non-overlapping, each gap
non-empty and inside the parsed range. -/
abbrev gapsWF (s : InputStream) : Prop :=
  List.Chain' gapLe s.gaps ∧
  ∀ g ∈ s.gaps, g.«from» < g.«to» ∧ g.«to» ≤ s.«end» ∧ s.start ≤ g.«from»

/-- `[a, b)` (with `a ≤ b`, `a < b` in use) meets no gap of the list. -/
abbrev gapFree (gaps : List InputGap) (a b : Nat) : Prop :=
  ∀ g ∈ gaps, g.«to» ≤ a ∨ b ≤ g.«from»

/-- A cached chunk is empty, or a gap-free slice of the text inside
`[start, end)`. -/
abbrev chunkWF (s : InputStream) (cp : Nat) (c : List Nat) : Prop :=
  c = [] ∨ (c = (s.text.drop cp).take c.length ∧ s.start ≤ cp ∧
    cp + c.length ≤ s.«end» ∧ gapFree s.gaps cp (cp + c.length))

/-- Pre-invariant: everything except the `pos`/`chunkOff`/`next`
synchronisation, which `readNext` re-establishes (mid-`advance` the
position may sit one past the chunk, even inside a gap). -/
abbrev Pre (s : InputStream) : Prop :=
  s.«end» ≤ s.text.length ∧ s.start ≤ s.«end» ∧ gapsWF s ∧
  chunkWF s s.chunkPos s.chunk ∧ chunkWF s s.chunk2Pos s.chunk2 ∧
  s.start ≤ s.pos

/-- The invariant of a stream between public operations: on top of `Pre`,
the position avoids every gap, and either `next` is the chunk unit at
`chunkOff` with `pos = chunkPos + chunkOff`, or the stream is at the end
of the input with an empty chunk and `next = -1`. -/
abbrev Inv (s : InputStream) : Prop :=
  Pre s ∧ (∀ g ∈ s.gaps, ¬ inGap g s.pos) ∧
  ((s.chunkOff < s.chunk.length ∧ s.pos = s.chunkPos + s.chunkOff ∧
      s.next = charCode s.chunk s.chunkOff) ∨
    (s.chunk = [] ∧ s.chunkOff = 0 ∧ s.next = -1 ∧ s.«end» ≤ s.pos))

theorem charCode_nonneg_of_lt {l : List Nat} {i : Nat} (h : i < l.length) :
    0 ≤ charCode l i := by
  unfold charCode
  rw [List.getElem?_eq_getElem h]
  exact Int.ofNat_nonneg _

theorem charCode_slice {text chunk : List Nat} {cp : Nat}
    (h : chunk = (text.drop cp).take chunk.length) {i : Nat} (hi : i < chunk.length) :
    charCode chunk i = charCode text (cp + i) := by
  have hlen : chunk.length ≤ text.length - cp := by
    conv_lhs => rw [h]
    simp [List.length_take, List.length_drop]
  unfold charCode
  rw [h]
  rw [List.getElem?_take_of_lt hi, List.getElem?_drop]

/-- A slice equation bounds the slice inside the text. -/
theorem sliceLen_le {text chunk : List Nat} {cp : Nat}
    (h : chunk = (text.drop cp).take chunk.length) :
    cp + chunk.length ≤ text.length ∨ chunk = [] := by
  by_cases hc : chunk = []
  · exact Or.inr hc
  · left
    have : chunk.length ≤ (text.drop cp).length := by
      conv_lhs => rw [h]
      simp
    have hd : (text.drop cp).length = text.length - cp := by simp
    rw [hd] at this
    rcases le_or_lt cp text.length with h1 | h1
    · omega
    · exfalso
      have : text.drop cp = [] := List.drop_eq_nil_of_le (le_of_lt h1)
      rw [this] at h
      simp at h
      exact hc h

/-- The head of a sorted, non-overlapping, non-empty gap list precedes
every later gap. -/
theorem chain_head_le : ∀ (g : InputGap) (rest : List InputGap),
    List.Chain' gapLe (g :: rest) → (∀ x ∈ g :: rest, x.«from» < x.«to») →
    ∀ g' ∈ rest, gapLe g g'
  | g, [], _, _, g', hg' => by simp at hg'
  | g, h1 :: t, hchain, hval, g', hg' => by
    have h12 : gapLe g h1 := (List.chain'_cons.mp hchain).1
    rcases List.mem_cons.mp hg' with rfl | hmem
    · exact h12
    · have hrec := chain_head_le h1 t (List.chain'_cons.mp hchain).2
        (fun x hx => hval x (List.mem_cons_of_mem _ hx)) g' hmem
      have hv1 : h1.«from» < h1.«to» := hval h1 (by simp)
      exact le_trans h12 (le_trans (le_of_lt hv1) hrec)

/-- Sorted non-overlapping, non-empty gaps are pairwise ordered. -/
theorem gaps_pairwise : ∀ {gs : List InputGap},
    List.Chain' gapLe gs → (∀ g ∈ gs, g.«from» < g.«to») → List.Pairwise gapLe gs
  | [], _, _ => List.Pairwise.nil
  | g :: rest, hchain, hval =>
    List.Pairwise.cons (chain_head_le g rest hchain hval)
      (gaps_pairwise hchain.tail (fun x hx => hval x (List.mem_cons_of_mem _ hx)))

/-! ### `resolvePos` lemmas -/

/-- The backward branch of `resolvePos` never compensates for gaps: its
break test compares against `pos - offset`, which for a negative offset
lies beyond every gap the loop would have to subtract, so the loop always
returns the raw `pos + offset`. -/
theorem resolvePosBwd_eq : ∀ (gs : List InputGap) (pos offset : Int),
    offset < 0 → resolvePosBwd gs pos offset = pos + offset
  | [], _, _, _ => rfl
  | g :: rest, pos, offset, hneg => by
    unfold resolvePosBwd
    by_cases h : (g.«to» : Int) ≤ pos - offset
    · simp [h]
    · have h2 : ¬ (g.«to» : Int) ≤ pos := fun hc => h (by omega)
      simp only [if_neg h, if_neg h2]
      exact resolvePosBwd_eq rest pos offset hneg

theorem resolvePosFwd_ge : ∀ (gs : List InputGap) (pos offset : Int),
    (∀ g ∈ gs, g.«from» < g.«to») → 0 ≤ offset →
    pos + offset ≤ resolvePosFwd gs pos offset
  | [], _, _, _, _ => le_refl _
  | g :: rest, pos, offset, hval, hoff => by
    unfold resolvePosFwd
    by_cases h : pos + offset < (g.«from» : Int)
    · simp [h]
    · simp only [if_neg h]
      by_cases h2 : (g.«from» : Int) > pos
      · simp only [if_pos h2]
        have hv := hval g (by simp)
        have hge := resolvePosFwd_ge rest pos (offset + ((g.«to» : Int) - (g.«from» : Int)))
          (fun x hx => hval x (by simp [hx])) (by omega)
        omega
      · simp only [if_neg h2]
        exact resolvePosFwd_ge rest pos offset (fun x hx => hval x (by simp [hx])) hoff

theorem resolvePosFwd_avoid : ∀ (gs : List InputGap) (pos offset : Int),
    List.Chain' gapLe gs → (∀ g ∈ gs, g.«from» < g.«to») →
    (∀ g ∈ gs, (g.«to» : Int) ≤ pos ∨ pos < (g.«from» : Int)) →
    0 ≤ offset →
    ∀ g ∈ gs, (g.«to» : Int) ≤ resolvePosFwd gs pos offset ∨
      resolvePosFwd gs pos offset < (g.«from» : Int)
  | [], _, _, _, _, _, _, g, hg => by simp at hg
  | g :: rest, pos, offset, hch, hval, havoid, hoff, g', hg' => by
    unfold resolvePosFwd
    by_cases h : pos + offset < (g.«from» : Int)
    · simp only [if_pos h]
      rcases List.mem_cons.mp hg' with rfl | hmem
      · exact Or.inr h
      · right
        have h1 : gapLe g g' := chain_head_le g rest hch
          (fun x hx => hval x hx) g' hmem
        have hv := hval g (by simp)
        have : (g.«from» : Int) ≤ g'.«from» := by
          have : g.«to» ≤ g'.«from» := h1
          omega
        omega
    · simp only [if_neg h]
      by_cases h2 : (g.«from» : Int) > pos
      case pos =>
        simp only [if_pos h2]
        set off' := offset + ((g.«to» : Int) - (g.«from» : Int)) with hoff'
        have hv := hval g (by simp)
        have hoffge : 0 ≤ off' := by omega
        have hge := resolvePosFwd_ge rest pos off'
          (fun x hx => hval x (by simp [hx])) hoffge
        rcases List.mem_cons.mp hg' with rfl | hmem
        · left
          omega
        · exact resolvePosFwd_avoid rest pos off' hch.tail
            (fun x hx => hval x (by simp [hx]))
            (fun x hx => havoid x (by simp [hx])) hoffge g' hmem
      case neg =>
        simp only [if_neg h2]
        have hge := resolvePosFwd_ge rest pos offset
          (fun x hx => hval x (by simp [hx])) hoff
        rcases List.mem_cons.mp hg' with rfl | hmem
        · left
          rcases havoid g' (by simp) with h3 | h3
          · omega
          · omega
        · exact resolvePosFwd_avoid rest pos offset hch.tail
            (fun x hx => hval x (by simp [hx]))
            (fun x hx => havoid x (by simp [hx])) hoff g' hmem

/-- When no gap starts strictly between `pos` (exclusive) and
`pos + offset` (inclusive), the forward branch resolves to the raw
`pos + offset`. -/
theorem resolvePosFwd_nocross : ∀ (gs : List InputGap) (pos offset : Int),
    (∀ g ∈ gs, ¬ (pos < (g.«from» : Int) ∧ (g.«from» : Int) ≤ pos + offset)) →
    resolvePosFwd gs pos offset = pos + offset
  | [], _, _, _ => rfl
  | g :: rest, pos, offset, h => by
    unfold resolvePosFwd
    by_cases h1 : pos + offset < (g.«from» : Int)
    · simp [h1]
    · have h2 : ¬ (g.«from» : Int) > pos := by
        have := h g (by simp)
        omega
      simp only [if_neg h1, if_neg h2]
      exact resolvePosFwd_nocross rest pos offset (fun g' hg' => h g' (by simp [hg']))

/-- For a non-negative offset from a gap-avoiding position, `resolvePos`
lands at or beyond `pos + offset` and outside every gap. -/
theorem resolvePos_spec (s : InputStream) (offset : Int)
    (hch : List.Chain' gapLe s.gaps) (hval : ∀ g ∈ s.gaps, g.«from» < g.«to»)
    (hpos : ∀ g ∈ s.gaps, ¬ inGap g s.pos) (hoff : 0 ≤ offset) :
    (s.pos : Int) + offset ≤ s.resolvePos (s.pos : Int) offset ∧
    ∀ g ∈ s.gaps, (g.«to» : Int) ≤ s.resolvePos (s.pos : Int) offset ∨
      s.resolvePos (s.pos : Int) offset < (g.«from» : Int) := by
  have havoid : ∀ g ∈ s.gaps, (g.«to» : Int) ≤ (s.pos : Int) ∨
      (s.pos : Int) < (g.«from» : Int) := by
    intro g hg
    have := hpos g hg
    unfold inGap at this
    omega
  unfold InputStream.resolvePos
  by_cases h0 : s.gaps = [] ∨ offset = 0
  · simp only [if_pos h0]
    refine ⟨le_refl _, ?_⟩
    intro g hg
    rcases h0 with h0 | h0
    · rw [h0] at hg; simp at hg
    · subst h0
      have := havoid g hg
      omega
  · simp only [if_neg h0]
    have hneg : ¬ offset < 0 := by omega
    simp only [if_neg hneg]
    exact ⟨resolvePosFwd_ge s.gaps _ offset hval hoff,
      resolvePosFwd_avoid s.gaps _ offset hch hval havoid hoff⟩

/-! ### `stripGaps` lemmas -/

theorem take_self_length {α : Type} (l : List α) (k : Nat) :
    l.take k = l.take ((l.take k).length) := by
  rw [List.length_take]
  rcases le_total k l.length with h | h
  · rw [Nat.min_eq_left h]
  · rw [Nat.min_eq_right h, List.take_of_length_le h, List.take_length]

/-- Correctness of the `removeGapsFromChunk` loop.  `gaps0` is the
stream's full gap list and `gs` the loop's remaining suffix; every gap of
`gaps0` is either still to be processed or already ends at or before
`frm`.  On `Sum.inl` the final chunk is a non-empty gap-free slice of the
text at the final position, which itself avoids every gap and equals `frm`
whenever `frm` was not inside a gap; on `Sum.inr` the refetch position is
the `to` of a gap beyond `frm`, and `frm` was inside a gap. -/
theorem stripGaps_spec :
    ∀ (gs : List InputGap) (c : List Nat) (frm toPos : Nat)
      (text : List Nat) (gaps0 : List InputGap) (endP : Nat),
    List.Chain' gapLe gs → (∀ g ∈ gs, g.«from» < g.«to» ∧ g.«to» ≤ endP) →
    (∀ g ∈ gaps0, g ∈ gs ∨ g.«to» ≤ frm) →
    c = (text.drop frm).take c.length → c ≠ [] → frm + c.length = toPos → toPos ≤ endP →
    (match stripGaps gs c frm toPos with
     | Sum.inl (c', p) =>
        c' = (text.drop p).take c'.length ∧ frm ≤ p ∧ p + c'.length ≤ toPos ∧ c' ≠ [] ∧
        (∀ g ∈ gaps0, ¬ inGap g p) ∧
        (∀ g ∈ gaps0, g.«to» ≤ p ∨ p + c'.length ≤ g.«from») ∧
        ((∀ g ∈ gs, ¬ inGap g frm) → p = frm)
     | Sum.inr p =>
        frm < p ∧ p ≤ endP ∧ (∃ g ∈ gs, p = g.«to» ∧ frm < g.«to») ∧
        ¬ (∀ g ∈ gs, ¬ inGap g frm))
  | [], c, frm, toPos, text, gaps0, endP, _, _, hcov, hslice, hne, hlen, _ => by
    simp only [stripGaps]
    have hfree : ∀ g ∈ gaps0, g.«to» ≤ frm := by
      intro g hg
      rcases hcov g hg with h | h
      · simp at h
      · exact h
    refine ⟨hslice, le_refl _, by omega, hne, ?_, ?_, fun _ => trivial⟩
    · intro g hg
      have := hfree g hg
      unfold inGap
      omega
    · intro g hg
      exact Or.inl (hfree g hg)
  | g :: rest, c, frm, toPos, text, gaps0, endP, hch, hval, hcov, hslice, hne, hlen, hend => by
    have hvg := hval g (by simp)
    have hclen : 0 < c.length := List.length_pos.mpr hne
    have hrest_from : ∀ g' ∈ rest, g.«to» ≤ g'.«from» :=
      chain_head_le g rest hch (fun x hx => (hval x hx).1)
    simp only [stripGaps]
    by_cases hbreak : toPos ≤ g.«from»
    case pos =>
      simp only [if_pos hbreak]
      refine ⟨hslice, le_refl _, by omega, hne, ?_, ?_, fun _ => trivial⟩
      · intro g0 hg0
        unfold inGap
        rcases hcov g0 hg0 with h | h
        · rcases List.mem_cons.mp h with rfl | hmem
          · omega
          · have h1 := hrest_from g0 hmem
            omega
        · omega
      · intro g0 hg0
        rcases hcov g0 hg0 with h | h
        · rcases List.mem_cons.mp h with rfl | hmem
          · right; omega
          · right
            have h1 := hrest_from g0 hmem
            omega
        · exact Or.inl (by omega)
    case neg =>
      simp only [if_neg hbreak]
      by_cases hcut : frm < g.«to»
      case neg =>
        simp only [if_neg hcut]
        have hcov' : ∀ g0 ∈ gaps0, g0 ∈ rest ∨ g0.«to» ≤ frm := by
          intro g0 hg0
          rcases hcov g0 hg0 with h | h
          · rcases List.mem_cons.mp h with rfl | hmem
            · right; omega
            · exact Or.inl hmem
          · exact Or.inr h
        have ih := stripGaps_spec rest c frm toPos text gaps0 endP hch.tail
          (fun x hx => hval x (by simp [hx])) hcov' hslice hne hlen hend
        rcases hmatch : stripGaps rest c frm toPos with cp | p
        · rcases cp with ⟨c', p⟩
          rw [hmatch] at ih
          refine ⟨ih.1, ih.2.1, ih.2.2.1, ih.2.2.2.1, ih.2.2.2.2.1, ih.2.2.2.2.2.1, ?_⟩
          intro hav
          exact ih.2.2.2.2.2.2 (fun x hx => hav x (by simp [hx]))
        · rw [hmatch] at ih
          refine ⟨ih.1, ih.2.1, ?_, ?_⟩
          · obtain ⟨g', hg', hp⟩ := ih.2.2.1
            exact ⟨g', by simp [hg'], hp⟩
          · intro hav
            exact ih.2.2.2 (fun x hx => hav x (by simp [hx]))
      case pos =>
        simp only [if_pos hcut]
        by_cases hfr : frm < g.«from»
        case pos =>
          simp only [if_pos hfr]
          have hlen' : (c.take (g.«from» - frm)).length = g.«from» - frm := by
            rw [List.length_take]
            omega
          refine ⟨?_, le_refl _, ?_, ?_, ?_, ?_, fun _ => trivial⟩
          · rw [hlen']
            conv_lhs => rw [hslice, List.take_take]
            rw [Nat.min_eq_left (by omega)]
          · rw [hlen']; omega
          · intro hc
            have := congrArg List.length hc
            rw [hlen'] at this
            simp at this
            omega
          · intro g0 hg0
            unfold inGap
            rcases hcov g0 hg0 with h | h
            · rcases List.mem_cons.mp h with rfl | hmem
              · omega
              · have h1 := hrest_from g0 hmem
                omega
            · omega
          · intro g0 hg0
            rw [hlen']
            rcases hcov g0 hg0 with h | h
            · rcases List.mem_cons.mp h with rfl | hmem
              · right; omega
              · have h1 := hrest_from g0 hmem
                right; omega
            · exact Or.inl (by omega)
        case neg =>
          simp only [if_neg hfr]
          by_cases hmore : g.«to» < toPos
          case pos =>
            simp only [if_pos hmore]
            have hfrm_le : frm ≤ g.«to» := by omega
            have hlen2 : (c.drop (g.«to» - frm)).length = c.length - (g.«to» - frm) := by
              simp
            have hslice2 : c.drop (g.«to» - frm) =
                (text.drop g.«to»).take (c.drop (g.«to» - frm)).length := by
              rw [hlen2]
              conv_lhs => rw [hslice]
              rw [List.drop_take, List.drop_drop]
              congr 2
              omega
            have hne2 : c.drop (g.«to» - frm) ≠ [] := by
              intro hc
              have := congrArg List.length hc
              rw [hlen2] at this
              simp at this
              omega
            have hcov2 : ∀ g0 ∈ gaps0, g0 ∈ rest ∨ g0.«to» ≤ g.«to» := by
              intro g0 hg0
              rcases hcov g0 hg0 with h | h
              · rcases List.mem_cons.mp h with rfl | hmem
                · right; omega
                · exact Or.inl hmem
              · right; omega
            have ih := stripGaps_spec rest (c.drop (g.«to» - frm)) g.«to» toPos text gaps0 endP
              hch.tail (fun x hx => hval x (by simp [hx])) hcov2 hslice2 hne2
              (by rw [hlen2]; omega) hend
            have hgin : inGap g frm := ⟨by omega, hcut⟩
            rcases hmatch : stripGaps rest (c.drop (g.«to» - frm)) g.«to» toPos with cp | p
            · rcases cp with ⟨c', p⟩
              rw [hmatch] at ih
              refine ⟨ih.1, by omega, ih.2.2.1, ih.2.2.2.1, ih.2.2.2.2.1, ih.2.2.2.2.2.1, ?_⟩
              intro hav
              exact absurd hgin (hav g (by simp))
            · rw [hmatch] at ih
              refine ⟨by omega, ih.2.1, ?_, ?_⟩
              · obtain ⟨g', hg', hp, hlt⟩ := ih.2.2.1
                exact ⟨g', by simp [hg'], hp, by omega⟩
              · intro hav
                exact absurd hgin (hav g (by simp))
          case neg =>
            simp only [if_neg hmore]
            have hgin : inGap g frm := ⟨by omega, hcut⟩
            refine ⟨hcut, hvg.2, ⟨g, by simp, rfl, hcut⟩, ?_⟩
            intro hav
            exact absurd hgin (hav g (by simp))

/-- `stripGaps` only moves the position forward (`Sum.inl`). -/
theorem stripGaps_inl_le :
    ∀ (gs : List InputGap) (c : List Nat) (frm toPos : Nat) {c' : List Nat} {p : Nat},
    stripGaps gs c frm toPos = Sum.inl (c', p) → frm ≤ p
  | [], c, frm, toPos, c', p, h => by
    simp only [stripGaps] at h
    cases h
    exact le_refl _
  | g :: rest, c, frm, toPos, c', p, h => by
    simp only [stripGaps] at h
    by_cases hbreak : toPos ≤ g.«from»
    · rw [if_pos hbreak] at h
      cases h
      exact le_refl _
    · rw [if_neg hbreak] at h
      by_cases hcut : frm < g.«to»
      · rw [if_pos hcut] at h
        by_cases hfr : frm < g.«from»
        · rw [if_pos hfr] at h
          cases h
          exact le_refl _
        · rw [if_neg hfr] at h
          by_cases hmore : g.«to» < toPos
          · rw [if_pos hmore] at h
            exact le_trans (by omega) (stripGaps_inl_le rest _ g.«to» toPos h)
          · rw [if_neg hmore] at h
            cases h
      · rw [if_neg hcut] at h
        exact stripGaps_inl_le rest c frm toPos h

/-- One element strictly separates two `countP`s. -/
theorem countP_strict {α : Type} {p q : α → Bool} :
    ∀ {l : List α}, (∀ x ∈ l, p x = true → q x = true) →
    ∀ x ∈ l, p x = false → q x = true → l.countP p < l.countP q
  | [], _, x, hx, _, _ => by simp at hx
  | a :: t, hmono, x, hx, hpx, hqx => by
    rw [List.countP_cons, List.countP_cons]
    rcases List.mem_cons.mp hx with rfl | hmem
    · have h1 : (if p x = true then 1 else 0) = 0 := by simp [hpx]
      have h2 : (if q x = true then 1 else 0) = 1 := by simp [hqx]
      rw [h1, h2]
      have hle := List.countP_mono_left (l := t)
        (fun a ha => hmono a (List.mem_cons_of_mem _ ha))
      omega
    · have hrec := countP_strict (fun y hy => hmono y (List.mem_cons_of_mem _ hy)) x hmem hpx hqx
      have hif : (if p a = true then 1 else 0) ≤ (if q a = true then 1 else 0) := by
        by_cases h : p a = true
        · simp [h, hmono a (by simp) h]
        · simp only [if_neg h]
          by_cases h2 : q a = true <;> simp [h2]
      omega

/-! ### `getChunk` correctness -/

theorem stripGaps_inr_le :
    ∀ (gs : List InputGap) (c : List Nat) (frm toPos : Nat) {p : Nat},
    stripGaps gs c frm toPos = Sum.inr p → frm ≤ p
  | [], c, frm, toPos, p, h => by
    simp only [stripGaps] at h
    exact absurd h (by simp)
  | g :: rest, c, frm, toPos, p, h => by
    simp only [stripGaps] at h
    by_cases hbreak : toPos ≤ g.«from»
    · rw [if_pos hbreak] at h
      exact absurd h (by simp)
    · rw [if_neg hbreak] at h
      by_cases hcut : frm < g.«to»
      · rw [if_pos hcut] at h
        by_cases hfr : frm < g.«from»
        · rw [if_pos hfr] at h
          exact absurd h (by simp)
        · rw [if_neg hfr] at h
          by_cases hmore : g.«to» < toPos
          · rw [if_pos hmore] at h
            exact le_trans (by omega) (stripGaps_inr_le rest _ g.«to» toPos h)
          · rw [if_neg hmore] at h
            have := Sum.inr.inj h
            omega
      · rw [if_neg hcut] at h
        exact stripGaps_inr_le rest c frm toPos h

/-- `getChunk` never touches the input, the range, the gaps or the
token, and only moves the position forward. -/
theorem getChunkGo_frame : ∀ (fuel : Nat) (s : InputStream),
    (getChunkGo fuel s).2.text = s.text ∧ (getChunkGo fuel s).2.chunkLen = s.chunkLen ∧
    (getChunkGo fuel s).2.start = s.start ∧ (getChunkGo fuel s).2.«end» = s.«end» ∧
    (getChunkGo fuel s).2.gaps = s.gaps ∧ (getChunkGo fuel s).2.lookAhead = s.lookAhead ∧
    s.pos ≤ (getChunkGo fuel s).2.pos
  | 0, s => ⟨rfl, rfl, rfl, rfl, rfl, rfl, le_refl _⟩
  | fuel + 1, s => by
    simp only [getChunkGo]
    by_cases h1 : s.chunk2Pos ≤ s.pos ∧ s.pos < s.chunk2Pos + s.chunk2.length
    · simp only [if_pos h1]
      exact ⟨trivial, trivial, trivial, trivial, trivial, trivial, le_refl _⟩
    · simp only [if_neg h1]
      by_cases h2 : s.«end» ≤ s.pos
      · simp only [if_pos h2]
        exact ⟨trivial, trivial, trivial, trivial, trivial, trivial, le_refl _⟩
      · simp only [if_neg h2]
        by_cases h3 : s.gaps = []
        · simp only [if_pos h3]
          exact ⟨trivial, trivial, trivial, trivial, trivial, trivial, le_refl _⟩
        · simp only [if_neg h3]
          rcases hmatch : stripGaps s.gaps
              (if s.«end» < s.pos + (s.inputChunkAt s.pos).length
               then (s.inputChunkAt s.pos).take (s.«end» - s.pos)
               else s.inputChunkAt s.pos)
              s.pos
              (s.pos + (if s.«end» < s.pos + (s.inputChunkAt s.pos).length
               then (s.inputChunkAt s.pos).take (s.«end» - s.pos)
               else s.inputChunkAt s.pos).length) with cp | p
          · rcases cp with ⟨c', p⟩
            have := stripGaps_inl_le _ _ _ _ hmatch
            exact ⟨rfl, rfl, rfl, rfl, rfl, rfl, this⟩
          · have h4 := stripGaps_inr_le _ _ _ _ hmatch
            have ih := getChunkGo_frame fuel
              { s with chunk2 := s.chunk, chunk2Pos := s.chunkPos,
                       chunk := [], chunkPos := p, chunkOff := 0, pos := p }
            refine ⟨ih.1, ih.2.1, ih.2.2.1, ih.2.2.2.1, ih.2.2.2.2.1, ih.2.2.2.2.2.1, ?_⟩
            exact le_trans h4 ih.2.2.2.2.2.2

/-- Postcondition of `getChunk`: on success the new chunk is non-empty,
covers the (gap-avoiding) position, and the caller's `next` is untouched;
on failure the stream is at the end of the input with an empty chunk and
`next = -1`.  Both cached chunks remain well-formed, and the position is
untouched whenever it was not inside a gap. -/
structure GetChunkPost (s s' : InputStream) (ok : Bool) : Prop where
  next_eq : ok = true → s'.next = s.next
  pos_fix : (∀ g ∈ s.gaps, ¬ inGap g s.pos) → s'.pos = s.pos
  chunk_wf : chunkWF s' s'.chunkPos s'.chunk
  chunk2_wf : chunkWF s' s'.chunk2Pos s'.chunk2
  ok_true : ok = true → s'.chunkOff < s'.chunk.length ∧ s'.pos = s'.chunkPos + s'.chunkOff ∧
    (∀ g ∈ s'.gaps, ¬ inGap g s'.pos)
  ok_false : ok = false → s'.chunk = [] ∧ s'.chunkOff = 0 ∧ s'.next = -1 ∧ s'.«end» ≤ s'.pos

theorem getChunkGo_spec : ∀ (fuel : Nat) (s : InputStream),
    Pre s → s.gaps.countP (fun g => decide (s.pos < g.«to»)) < fuel →
    GetChunkPost s (getChunkGo fuel s).2 (getChunkGo fuel s).1
  | 0, _, _, hfuel => absurd hfuel (by omega)
  | fuel + 1, s, hpre, hfuel => by
    obtain ⟨hend, hse, ⟨hch, hgv⟩, hcw, hc2w, hsp⟩ := hpre
    simp only [getChunkGo]
    by_cases h1 : s.chunk2Pos ≤ s.pos ∧ s.pos < s.chunk2Pos + s.chunk2.length
    case pos =>
      simp only [if_pos h1]
      have hc2 : s.chunk2 ≠ [] := by
        intro hc
        rw [hc] at h1
        simp at h1
        omega
      rcases hc2w with hc2e | ⟨hsl, hst, hbnd, hfree⟩
      · exact absurd hc2e hc2
      refine ⟨fun _ => rfl, fun _ => rfl, Or.inr ⟨hsl, hst, hbnd, hfree⟩,
        ?_, fun _ => ⟨by show s.pos - s.chunk2Pos < s.chunk2.length; omega,
          by show s.pos = s.chunk2Pos + (s.pos - s.chunk2Pos); omega, ?_⟩,
        fun h => by simp at h⟩
      · rcases hcw with hce | ⟨hsl2, hst2, hbnd2, hfree2⟩
        · exact Or.inl hce
        · exact Or.inr ⟨hsl2, hst2, hbnd2, hfree2⟩
      · intro g hg
        show ¬ inGap g s.pos
        have := hfree g hg
        unfold inGap
        omega
    case neg =>
      simp only [if_neg h1]
      by_cases h2 : s.«end» ≤ s.pos
      case pos =>
        simp only [if_pos h2]
        refine ⟨fun h => by simp at h, fun _ => rfl, Or.inl rfl, ?_,
          fun h => by simp at h, fun _ => ⟨rfl, rfl, rfl, h2⟩⟩
        rcases hc2w with hce | ⟨hsl2, hst2, hbnd2, hfree2⟩
        · exact Or.inl hce
        · exact Or.inr ⟨hsl2, hst2, hbnd2, hfree2⟩
      case neg =>
        simp only [if_neg h2]
        have hposlt : s.pos < s.«end» := by omega
        have hnc_len : 0 < (s.inputChunkAt s.pos).length := by
          unfold InputStream.inputChunkAt
          rw [List.length_take, List.length_drop]
          omega
        set nc := s.inputChunkAt s.pos with hnc
        set c0 : List Nat := if s.«end» < s.pos + nc.length
          then nc.take (s.«end» - s.pos) else nc with hc0
        have hc0_slice : c0 = (s.text.drop s.pos).take c0.length := by
          rw [hc0, hnc]
          unfold InputStream.inputChunkAt
          split
          · rw [List.take_take]
            exact take_self_length _ _
          · exact take_self_length _ _
        have hc0_len : s.pos + c0.length ≤ s.«end» := by
          rw [hc0]
          split
          next hx =>
            rw [List.length_take]
            omega
          next hx =>
            omega
        have hc0_ne : c0 ≠ [] := by
          rw [hc0]
          split
          next hx =>
            intro hcon
            have := congrArg List.length hcon
            rw [List.length_take] at this
            simp only [List.length_nil] at this
            omega
          next hx =>
            intro hcon
            rw [hcon] at hnc_len
            simp at hnc_len
        by_cases h3 : s.gaps = []
        case pos =>
          simp only [if_pos h3]
          refine ⟨fun _ => rfl, fun _ => rfl,
            Or.inr ⟨hc0_slice, hsp, hc0_len, ?_⟩, ?_,
            fun _ => ⟨by show 0 < c0.length; exact List.length_pos.mpr hc0_ne,
              by show s.pos = s.pos + 0; omega, ?_⟩, fun h => by simp at h⟩
          · intro g hg
            rw [h3] at hg
            simp at hg
          · rcases hcw with hce | ⟨hsl2, hst2, hbnd2, hfree2⟩
            · exact Or.inl hce
            · exact Or.inr ⟨hsl2, hst2, hbnd2, hfree2⟩
          · intro g hg
            have hmem : g ∈ s.gaps := hg
            rw [h3] at hmem
            simp at hmem
        case neg =>
          simp only [if_neg h3]
          have hstrip := stripGaps_spec s.gaps c0 s.pos (s.pos + c0.length)
            s.text s.gaps s.«end» hch
            (fun g hg => ⟨(hgv g hg).1, (hgv g hg).2.1⟩)
            (fun g hg => Or.inl hg) hc0_slice hc0_ne rfl hc0_len
          rcases hmatch : stripGaps s.gaps c0 s.pos (s.pos + c0.length) with cp | p
          · rcases cp with ⟨c', p⟩
            rw [hmatch] at hstrip
            obtain ⟨hsl', hple, hbnd', hne', havoid', hdisj', hfix'⟩ := hstrip
            refine ⟨fun _ => rfl, ?_, Or.inr ⟨hsl', by show s.start ≤ p; omega,
              by show p + c'.length ≤ s.«end»; omega, ?_⟩, ?_,
              fun _ => ⟨by show 0 < c'.length; exact List.length_pos.mpr hne',
                by show p = p + 0; omega, ?_⟩, fun h => by simp at h⟩
            · intro hav
              exact hfix' hav
            · intro g hg
              rcases hdisj' g hg with h | h
              · exact Or.inl h
              · exact Or.inr h
            · rcases hcw with hce | ⟨hsl2, hst2, hbnd2, hfree2⟩
              · exact Or.inl hce
              · exact Or.inr ⟨hsl2, hst2, hbnd2, hfree2⟩
            · intro g hg
              exact havoid' g hg
          · rw [hmatch] at hstrip
            obtain ⟨hplt, hpend, ⟨gw, hgw, hgwp, hgwlt⟩, hnav⟩ := hstrip
            have hpre2 : Pre { s with chunk2 := s.chunk, chunk2Pos := s.chunkPos, chunk := ([] : List Nat), chunkPos := p, chunkOff := 0, pos := p } := by
              refine ⟨hend, hse, ⟨hch, ?_⟩, Or.inl rfl, ?_, by show s.start ≤ p; omega⟩
              · intro g hg
                exact hgv g hg
              · rcases hcw with hce | ⟨hsl2, hst2, hbnd2, hfree2⟩
                · exact Or.inl hce
                · exact Or.inr ⟨hsl2, hst2, hbnd2, hfree2⟩
            have hcount : (List.countP (fun g => decide (p < g.«to»)) s.gaps) <
                List.countP (fun g => decide (s.pos < g.«to»)) s.gaps := by
              refine countP_strict ?_ gw hgw ?_ ?_
              · intro x hx hpx
                simp only [decide_eq_true_eq] at hpx ⊢
                omega
              · simp only [decide_eq_false_iff_not]
                omega
              · simp only [decide_eq_true_eq]
                omega
            have ih := getChunkGo_spec fuel
              { s with chunk2 := s.chunk, chunk2Pos := s.chunkPos,
                       chunk := ([] : List Nat), chunkPos := p, chunkOff := 0, pos := p }
              hpre2 (by show s.gaps.countP (fun g => decide (p < g.«to»)) < fuel; omega)
            refine ⟨?_, ?_, ih.chunk_wf, ih.chunk2_wf, ?_, ?_⟩
            · intro h
              exact ih.next_eq h
            · intro hav
              exact absurd hav hnav
            · intro h
              exact ih.ok_true h
            · intro h
              exact ih.ok_false h

theorem getChunk_spec (s : InputStream) (h : Pre s) :
    GetChunkPost s s.getChunk.2 s.getChunk.1 := by
  unfold InputStream.getChunk
  refine getChunkGo_spec _ s h ?_
  have := List.countP_le_length (l := s.gaps) (p := fun g => decide (s.pos < g.«to»))
  omega

theorem getChunk_frame (s : InputStream) :
    s.getChunk.2.text = s.text ∧ s.getChunk.2.chunkLen = s.chunkLen ∧
    s.getChunk.2.start = s.start ∧ s.getChunk.2.«end» = s.«end» ∧
    s.getChunk.2.gaps = s.gaps ∧ s.getChunk.2.lookAhead = s.lookAhead ∧
    s.pos ≤ s.getChunk.2.pos :=
  getChunkGo_frame _ s

/-- Transport `Pre` across two states agreeing on the framed fields. -/
theorem Pre_transfer {s t : InputStream} (h : Pre s)
    (htext : t.text = s.text) (hstart : t.start = s.start) (hendq : t.«end» = s.«end»)
    (hgaps : t.gaps = s.gaps)
    (hcw : chunkWF t t.chunkPos t.chunk) (hc2w : chunkWF t t.chunk2Pos t.chunk2)
    (hpos : t.start ≤ t.pos) : Pre t := by
  obtain ⟨h1, h2, ⟨h3, h4⟩, _, _, _⟩ := h
  refine ⟨by rw [hendq, htext]; exact h1, by rw [hstart, hendq]; exact h2,
    ⟨by rw [hgaps]; exact h3, ?_⟩, hcw, hc2w, hpos⟩
  intro g hg
  rw [hgaps] at hg
  rw [hstart, hendq]
  exact h4 g hg

/-- `readNext` re-establishes the full invariant from `Pre` plus the
chunk-offset synchronisation, without touching the input, the range, the
gaps or the token, moving the position only forward (and not at all when
it was outside every gap). -/
theorem readNext_spec (s : InputStream) (hpre : Pre s)
    (hsync : s.chunkOff = s.chunk.length ∨
      (s.chunkOff < s.chunk.length ∧ s.pos = s.chunkPos + s.chunkOff)) :
    Inv s.readNext ∧
    s.readNext.text = s.text ∧ s.readNext.chunkLen = s.chunkLen ∧
    s.readNext.start = s.start ∧ s.readNext.«end» = s.«end» ∧
    s.readNext.gaps = s.gaps ∧ s.readNext.lookAhead = s.lookAhead ∧
    s.pos ≤ s.readNext.pos ∧
    ((∀ g ∈ s.gaps, ¬ inGap g s.pos) → s.readNext.pos = s.pos) := by
  obtain ⟨hend, hse, ⟨hch, hgv⟩, hcw, hc2w, hsp⟩ := hpre
  unfold InputStream.readNext
  by_cases hoff : s.chunkOff = s.chunk.length
  case pos =>
    rw [if_pos hoff]
    have hpost := getChunk_spec s ⟨hend, hse, ⟨hch, hgv⟩, hcw, hc2w, hsp⟩
    have hframe := getChunk_frame s
    rcases hres : s.getChunk with ⟨ok, s'⟩
    have e1 : s.getChunk.1 = ok := by rw [hres]
    have e2 : s.getChunk.2 = s' := by rw [hres]
    rw [e1, e2] at hpost
    rw [e2] at hframe
    obtain ⟨hft, hfc, hfs, hfe, hfg, hfl, hfp⟩ := hframe
    have hpre' : Pre s' := by
      refine Pre_transfer ⟨hend, hse, ⟨hch, hgv⟩, hcw, hc2w, hsp⟩ hft hfs hfe hfg
        hpost.chunk_wf hpost.chunk2_wf ?_
      rw [hfs]
      omega
    cases ok
    case false =>
      obtain ⟨hce, hco, hcn, hcp⟩ := hpost.ok_false rfl
      refine ⟨⟨hpre', ?_, Or.inr ⟨hce, hco, hcn, hcp⟩⟩, hft, hfc, hfs, hfe, hfg, hfl,
        hfp, hpost.pos_fix⟩
      intro g hg
      show ¬ inGap g s'.pos
      have hg' : g ∈ s.gaps := by
        rw [← hfg]
        exact hg
      have := (hgv g hg').2.1
      have hcp' : s.«end» ≤ s'.pos := by
        rw [← hfe]
        exact hcp
      unfold inGap
      omega
    case true =>
      obtain ⟨ho1, ho2, ho3⟩ := hpost.ok_true rfl
      exact ⟨⟨hpre', ho3, Or.inl ⟨ho1, ho2, rfl⟩⟩, hft, hfc, hfs, hfe, hfg, hfl, hfp,
        hpost.pos_fix⟩
  case neg =>
    rw [if_neg hoff]
    rcases hsync with h | ⟨hlt, hpeq⟩
    · exact absurd h hoff
    have hcne : s.chunk ≠ [] := by
      intro hc
      rw [hc] at hlt
      simp at hlt
    rcases hcw with hce | ⟨hsl, hst, hbnd, hfree⟩
    · exact absurd hce hcne
    refine ⟨⟨⟨hend, hse, ⟨hch, hgv⟩, Or.inr ⟨hsl, hst, hbnd, hfree⟩,
      ?_, hsp⟩, ?_, Or.inl ⟨hlt, hpeq, rfl⟩⟩, rfl, rfl, rfl, rfl, rfl, rfl,
      le_refl _, fun _ => rfl⟩
    · rcases hc2w with hce | ⟨hsl2, hst2, hbnd2, hfree2⟩
      · exact Or.inl hce
      · exact Or.inr ⟨hsl2, hst2, hbnd2, hfree2⟩
    · intro g hg
      show ¬ inGap g s.pos
      have hg' : g ∈ s.gaps := hg
      have := hfree g hg'
      unfold inGap
      omega

/-! ### Invariant preservation for the public operations -/

theorem mkStream_spec (text : List Nat) (chunkLen : Nat → Nat) (start «end» : Nat)
    (gaps : List InputGap)
    (h1 : «end» ≤ text.length) (h2 : start ≤ «end»)
    (h3 : List.Chain' gapLe gaps)
    (h4 : ∀ g ∈ gaps, g.«from» < g.«to» ∧ g.«to» ≤ «end» ∧ start ≤ g.«from») :
    Inv (mkStream text chunkLen start «end» gaps) ∧
    (mkStream text chunkLen start «end» gaps).text = text ∧
    (mkStream text chunkLen start «end» gaps).chunkLen = chunkLen ∧
    (mkStream text chunkLen start «end» gaps).start = start ∧
    (mkStream text chunkLen start «end» gaps).«end» = «end» ∧
    (mkStream text chunkLen start «end» gaps).gaps = gaps ∧
    start ≤ (mkStream text chunkLen start «end» gaps).pos := by
  have h := readNext_spec
    { text := text, chunkLen := chunkLen, start := start, «end» := «end», gaps := gaps,
      pos := start, chunk := [], chunkPos := start, chunkOff := 0, chunk2 := [],
      chunk2Pos := 0, next := -1, lookAhead := 0 }
    ⟨h1, h2, ⟨h3, h4⟩, Or.inl rfl, Or.inl rfl, le_refl _⟩ (Or.inl rfl)
  exact ⟨h.1, h.2.1, h.2.2.1, h.2.2.2.1, h.2.2.2.2.1, h.2.2.2.2.2.1, h.2.2.2.2.2.2.2.1⟩

theorem Inv_next_nonneg_of_lt {s : InputStream} (h : Inv s) (hlt : s.pos < s.«end») :
    0 ≤ s.next := by
  obtain ⟨_, _, hdisj⟩ := h
  rcases hdisj with ⟨hl, _, hc⟩ | ⟨_, _, _, hpe⟩
  · rw [hc]
    exact charCode_nonneg_of_lt hl
  · omega

theorem Inv_next_neg {s : InputStream} (h : Inv s) (hneg : s.next < 0) :
    s.next = -1 ∧ s.«end» ≤ s.pos := by
  obtain ⟨⟨_, _, _, hcw, _, _⟩, _, hdisj⟩ := h
  rcases hdisj with ⟨hl, _, hc⟩ | ⟨_, _, hn, hpe⟩
  · have := charCode_nonneg_of_lt (l := s.chunk) hl
    omega
  · exact ⟨hn, hpe⟩

theorem Inv_next_eof {s : InputStream} (h : Inv s) (hge : s.«end» ≤ s.pos) :
    s.next = -1 := by
  obtain ⟨⟨_, _, _, hcw, _, _⟩, _, hdisj⟩ := h
  rcases hdisj with ⟨hl, hpeq, _⟩ | ⟨_, _, hn, _⟩
  · rcases hcw with hce | ⟨_, _, hbnd, _⟩
    · rw [hce] at hl
      simp at hl
    · omega
  · exact hn

theorem Inv_next_eq {s : InputStream} (h : Inv s) (hlt : s.pos < s.«end») :
    s.next = charCode s.text s.pos := by
  obtain ⟨⟨_, _, _, hcw, _, _⟩, _, hdisj⟩ := h
  rcases hdisj with ⟨hl, hpeq, hc⟩ | ⟨_, _, _, hpe⟩
  · rcases hcw with hce | ⟨hsl, _, _, _⟩
    · rw [hce] at hl
      simp at hl
    · rw [hc, charCode_slice hsl hl, hpeq]
  · omega

theorem advanceStep_spec (s : InputStream) (h : Inv s) (hnext : 0 ≤ s.next) :
    Inv s.advanceStep ∧
    s.advanceStep.text = s.text ∧ s.advanceStep.chunkLen = s.chunkLen ∧
    s.advanceStep.start = s.start ∧ s.advanceStep.«end» = s.«end» ∧
    s.advanceStep.gaps = s.gaps ∧
    s.pos + 1 ≤ s.advanceStep.pos ∧
    s.advanceStep.lookAhead = max s.lookAhead ((s.pos : Int) + 1) := by
  obtain ⟨⟨hend, hse, ⟨hch, hgv⟩, hcw, hc2w, hsp⟩, hgap, hdisj⟩ := h
  rcases hdisj with ⟨hlt, hpeq, _⟩ | ⟨_, _, hneq, _⟩
  on_goal 2 =>
    rw [hneq] at hnext
    omega
  unfold InputStream.advanceStep
  have hla : (if ((s.pos + 1 : Nat) : Int) > s.lookAhead
      then ((s.pos + 1 : Nat) : Int) else s.lookAhead) = max s.lookAhead ((s.pos : Int) + 1) := by
    by_cases hx : ((s.pos + 1 : Nat) : Int) > s.lookAhead
    · rw [if_pos hx]
      rw [max_eq_right (by omega)]
      push_cast
      ring
    · rw [if_neg hx]
      rw [max_eq_left (by omega)]
  rw [hla]
  have hpre1 : Pre { s with chunkOff := s.chunkOff + 1, pos := s.pos + 1, lookAhead := max s.lookAhead ((s.pos : Int) + 1) } := by
    refine Pre_transfer ⟨hend, hse, ⟨hch, hgv⟩, hcw, hc2w, hsp⟩ rfl rfl rfl rfl ?_ ?_
      (by show s.start ≤ s.pos + 1; omega)
    · rcases hcw with hce | ⟨hsl, hst, hbnd, hfree⟩
      · exact Or.inl hce
      · exact Or.inr ⟨hsl, hst, hbnd, hfree⟩
    · rcases hc2w with hce | ⟨hsl, hst, hbnd, hfree⟩
      · exact Or.inl hce
      · exact Or.inr ⟨hsl, hst, hbnd, hfree⟩
  have hr := readNext_spec _ hpre1 (by
    show s.chunkOff + 1 = s.chunk.length ∨
      (s.chunkOff + 1 < s.chunk.length ∧ s.pos + 1 = s.chunkPos + (s.chunkOff + 1))
    omega)
  refine ⟨hr.1, hr.2.1, hr.2.2.1, hr.2.2.2.1, hr.2.2.2.2.1, hr.2.2.2.2.2.1, ?_, ?_⟩
  · have := hr.2.2.2.2.2.2.2.1
    exact this
  · exact hr.2.2.2.2.2.2.1

theorem advance_spec (s : InputStream) (h : Inv s) : ∀ n : Nat,
    Inv (s.advance n).2 ∧
    (s.advance n).2.text = s.text ∧ (s.advance n).2.chunkLen = s.chunkLen ∧
    (s.advance n).2.start = s.start ∧ (s.advance n).2.«end» = s.«end» ∧
    (s.advance n).2.gaps = s.gaps ∧
    s.pos ≤ (s.advance n).2.pos
  | 0 => ⟨h, rfl, rfl, rfl, rfl, rfl, le_refl _⟩
  | n + 1 => by
    unfold InputStream.advance
    by_cases hx : s.next < 0
    · rw [if_pos hx]
      exact ⟨h, rfl, rfl, rfl, rfl, rfl, le_refl _⟩
    · rw [if_neg hx]
      have hstep := advanceStep_spec s h (by omega)
      have ih := advance_spec s.advanceStep hstep.1 n
      refine ⟨ih.1, ?_, ?_, ?_, ?_, ?_, ?_⟩
      · rw [ih.2.1, hstep.2.1]
      · rw [ih.2.2.1, hstep.2.2.1]
      · rw [ih.2.2.2.1, hstep.2.2.2.1]
      · rw [ih.2.2.2.2.1, hstep.2.2.2.2.1]
      · rw [ih.2.2.2.2.2.1, hstep.2.2.2.2.2.1]
      · have h1 := hstep.2.2.2.2.2.2.1
        have h2 := ih.2.2.2.2.2.2
        omega

theorem peek_state (s : InputStream) (offset : Int) :
    (s.peek offset).2 = s ∨
    (s.peek offset).2 = { s with lookAhead := s.peekInspected offset } := by
  unfold InputStream.peek
  by_cases hx : s.peekInspected offset > s.lookAhead
  · rw [if_pos hx]
    exact Or.inr rfl
  · rw [if_neg hx]
    exact Or.inl rfl

theorem peek_Inv (s : InputStream) (h : Inv s) (offset : Int) : Inv (s.peek offset).2 := by
  rcases peek_state s offset with he | he
  · rw [he]
    exact h
  · rw [he]
    obtain ⟨⟨hend, hse, ⟨hch, hgv⟩, hcw, hc2w, hsp⟩, hgap, hdisj⟩ := h
    refine ⟨Pre_transfer ⟨hend, hse, ⟨hch, hgv⟩, hcw, hc2w, hsp⟩ rfl rfl rfl rfl ?_ ?_ hsp,
      hgap, ?_⟩
    · rcases hcw with hce | ⟨hsl, hst, hbnd, hfree⟩
      · exact Or.inl hce
      · exact Or.inr ⟨hsl, hst, hbnd, hfree⟩
    · rcases hc2w with hce | ⟨hsl, hst, hbnd, hfree⟩
      · exact Or.inl hce
      · exact Or.inr ⟨hsl, hst, hbnd, hfree⟩
    · rcases hdisj with ⟨h1, h2, h3⟩ | ⟨h1, h2, h3, h4⟩
      · exact Or.inl ⟨h1, h2, h3⟩
      · exact Or.inr ⟨h1, h2, h3, h4⟩

theorem reset_spec (s : InputStream) (h : Inv s) (p : Nat) (hp : s.start ≤ p) :
    Inv (s.reset p) ∧
    (s.reset p).text = s.text ∧ (s.reset p).chunkLen = s.chunkLen ∧
    (s.reset p).start = s.start ∧ (s.reset p).«end» = s.«end» ∧
    (s.reset p).gaps = s.gaps ∧
    p ≤ (s.reset p).pos ∧
    ((∀ g ∈ s.gaps, ¬ inGap g p) → (s.reset p).pos = p) := by
  obtain ⟨⟨hend, hse, ⟨hch, hgv⟩, hcw, hc2w, hsp⟩, hgap, hdisj⟩ := h
  unfold InputStream.reset
  by_cases h0 : s.pos = p
  case pos =>
    rw [if_pos h0]
    refine ⟨⟨Pre_transfer ⟨hend, hse, ⟨hch, hgv⟩, hcw, hc2w, hsp⟩ rfl rfl rfl rfl ?_ ?_
        (by show s.start ≤ s.pos; omega), ?_, ?_⟩,
      rfl, rfl, rfl, rfl, rfl, by show p ≤ s.pos; omega, fun _ => by show s.pos = p; omega⟩
    · rcases hcw with hce | ⟨hsl, hst, hbnd, hfree⟩
      · exact Or.inl hce
      · exact Or.inr ⟨hsl, hst, hbnd, hfree⟩
    · rcases hc2w with hce | ⟨hsl, hst, hbnd, hfree⟩
      · exact Or.inl hce
      · exact Or.inr ⟨hsl, hst, hbnd, hfree⟩
    · exact hgap
    · rcases hdisj with ⟨h1, h2, h3⟩ | ⟨h1, h2, h3, h4⟩
      · exact Or.inl ⟨h1, h2, h3⟩
      · exact Or.inr ⟨h1, h2, h3, h4⟩
  case neg =>
    rw [if_neg h0]
    by_cases h1 : s.chunkPos ≤ p ∧ p < s.chunkPos + s.chunk.length
    case pos =>
      rw [if_pos h1]
      have hcne : s.chunk ≠ [] := by
        intro hc
        rw [hc] at h1
        simp at h1
        omega
      rcases hcw with hce | ⟨hsl, hst, hbnd, hfree⟩
      · exact absurd hce hcne
      have hpre1 : Pre { s with lookAhead := (p : Int), pos := p, chunkOff := p - s.chunkPos } := by
        refine Pre_transfer ⟨hend, hse, ⟨hch, hgv⟩, Or.inr ⟨hsl, hst, hbnd, hfree⟩,
          hc2w, hsp⟩ rfl rfl rfl rfl ?_ ?_ (by show s.start ≤ p; omega)
        · exact Or.inr ⟨hsl, hst, hbnd, hfree⟩
        · rcases hc2w with hce | ⟨hsl2, hst2, hbnd2, hfree2⟩
          · exact Or.inl hce
          · exact Or.inr ⟨hsl2, hst2, hbnd2, hfree2⟩
      have hr := readNext_spec _ hpre1 (by
        show p - s.chunkPos = s.chunk.length ∨
          (p - s.chunkPos < s.chunk.length ∧ p = s.chunkPos + (p - s.chunkPos))
        right
        omega)
      have hfix : (∀ g ∈ s.gaps, ¬ inGap g p) := by
        intro g hg
        have := hfree g hg
        unfold inGap
        omega
      refine ⟨hr.1, hr.2.1, hr.2.2.1, hr.2.2.2.1, hr.2.2.2.2.1, hr.2.2.2.2.2.1, ?_, ?_⟩
      · have := hr.2.2.2.2.2.2.2.1
        exact this
      · intro _
        exact hr.2.2.2.2.2.2.2.2 hfix
    case neg =>
      rw [if_neg h1]
      have hpre1 : Pre { s with lookAhead := (p : Int), pos := p, chunk := ([] : List Nat), chunkOff := 0 } := by
        refine Pre_transfer ⟨hend, hse, ⟨hch, hgv⟩, hcw, hc2w, hsp⟩ rfl rfl rfl rfl
          (Or.inl rfl) ?_ (by show s.start ≤ p; omega)
        rcases hc2w with hce | ⟨hsl2, hst2, hbnd2, hfree2⟩
        · exact Or.inl hce
        · exact Or.inr ⟨hsl2, hst2, hbnd2, hfree2⟩
      have hr := readNext_spec _ hpre1 (Or.inl rfl)
      refine ⟨hr.1, hr.2.1, hr.2.2.1, hr.2.2.2.1, hr.2.2.2.2.1, hr.2.2.2.2.2.1, ?_, ?_⟩
      · have := hr.2.2.2.2.2.2.2.1
        exact this
      · intro hfix
        exact hr.2.2.2.2.2.2.2.2 hfix

/-! ### Characterising `peek`, `reset` and the stream claims -/

/-- When `peek`'s offset stays inside the cached chunk of a well-formed
stream, the gap-resolved position agrees with the raw `pos + offset`, and
it lies inside `[start, end)`. -/
theorem peek_inchunk_resolved (s : InputStream) (h : Inv s) (k : Int)
    (hin : 0 ≤ (s.chunkOff : Int) + k ∧ (s.chunkOff : Int) + k < s.chunk.length) :
    s.resolvePos (s.pos : Int) k = (s.pos : Int) + k ∧
    (s.start : Int) ≤ (s.pos : Int) + k ∧ (s.pos : Int) + k < (s.«end» : Int) := by
  obtain ⟨⟨hend, hse, ⟨hch, hgv⟩, hcw, hc2w, hsp⟩, hgap, hdisj⟩ := h
  have hlen : 0 < s.chunk.length := by omega
  have hcne : s.chunk ≠ [] := by
    intro hc
    rw [hc] at hlen
    simp at hlen
  rcases hcw with hce | ⟨hsl, hst, hbnd, hfree⟩
  · exact absurd hce hcne
  rcases hdisj with ⟨hlt, hpeq, _⟩ | ⟨hce, _, _, _⟩
  on_goal 2 => exact absurd hce hcne
  have hbounds : (s.start : Int) ≤ (s.pos : Int) + k ∧ (s.pos : Int) + k < (s.«end» : Int) := by
    constructor <;> omega
  refine ⟨?_, hbounds⟩
  unfold InputStream.resolvePos
  by_cases h0 : s.gaps = [] ∨ k = 0
  · rw [if_pos h0]
  · rw [if_neg h0]
    by_cases hneg : k < 0
    · rw [if_pos hneg]
      exact resolvePosBwd_eq _ _ _ hneg
    · rw [if_neg hneg]
      refine resolvePosFwd_nocross _ _ _ ?_
      intro g hg hcross
      have hv := (hgv g hg).1
      rcases hfree g hg with hcase | hcase <;> omega

/-- The code unit `peek` returns, for a well-formed stream: `-1` when the
gap-resolved position leaves `[start, end)`, the text unit there
otherwise. -/
theorem peekRead_eq (s : InputStream) (h : Inv s) (k : Int) :
    (s.peek k).1 =
      if s.resolvePos (s.pos : Int) k < (s.start : Int) ∨
          (s.«end» : Int) ≤ s.resolvePos (s.pos : Int) k then -1
      else charCode s.text (s.resolvePos (s.pos : Int) k).toNat := by
  have hpk : (s.peek k).1 = s.peekRead k := rfl
  rw [hpk]
  unfold InputStream.peekRead
  by_cases hin : 0 ≤ (s.chunkOff : Int) + k ∧ (s.chunkOff : Int) + k < s.chunk.length
  case pos =>
    rw [if_pos hin]
    obtain ⟨hreq, hge, hlt⟩ := peek_inchunk_resolved s h k hin
    rw [hreq]
    rw [if_neg (by omega)]
    obtain ⟨⟨hend, hse, _, hcw, _, hsp⟩, _, hdisj⟩ := h
    rcases hdisj with ⟨hlt2, hpeq, _⟩ | ⟨hce, _, _, _⟩
    on_goal 2 =>
      rw [hce] at hin
      simp at hin
      omega
    rcases hcw with hce | ⟨hsl, hst, hbnd, hfree⟩
    · rw [hce] at hin
      simp at hin
      omega
    have hidx : ((s.chunkOff : Int) + k).toNat < s.chunk.length := by omega
    rw [charCode_slice hsl hidx]
    congr 1
    omega
  case neg =>
    rw [if_neg hin]

/-- `reset` to a gap-avoiding position in `[start, ∞)` loads the text
unit at that position into `next` (or `-1` past the end). -/
theorem reset_next (t : InputStream) (h : Inv t) (q : Nat) (hq : t.start ≤ q)
    (hgapq : ∀ g ∈ t.gaps, ¬ inGap g q) :
    (t.reset q).next = if t.«end» ≤ q then -1 else charCode t.text q := by
  have hr := reset_spec t h q hq
  by_cases hx : t.«end» ≤ q
  · rw [if_pos hx]
    refine Inv_next_eof hr.1 ?_
    rw [hr.2.2.2.2.1]
    have := hr.2.2.2.2.2.2.1
    omega
  · rw [if_neg hx]
    have hfix := hr.2.2.2.2.2.2.2 hgapq
    have hnext := Inv_next_eq hr.1 (by rw [hfix, hr.2.2.2.2.1]; omega)
    rw [hnext, hfix, hr.2.1]

/-- C3 (amended: non-negative offsets): for every well-formed stream at
position `p` and every offset `k ≥ 0`, `peek(k)` returns the same code
unit that a fresh stream over the same input, range and gaps, reset to
the gap-resolved position of `p + k`, reports as `next`. -/
theorem c3_peek_reset (s : InputStream) (h : Inv s) (k : Int) (hk : 0 ≤ k) :
    (s.peek k).1 =
      ((mkStream s.text s.chunkLen s.start s.«end» s.gaps).reset
        (s.resolvePos (s.pos : Int) k).toNat).next := by
  obtain ⟨⟨hend, hse, ⟨hch, hgv⟩, hcw, hc2w, hsp⟩, hgap, hdisj⟩ := h
  obtain ⟨hge, havoid⟩ := resolvePos_spec s k hch (fun g hg => (hgv g hg).1) hgap hk
  set q : Int := s.resolvePos (s.pos : Int) k with hqdef
  have hq0 : 0 ≤ q := by omega
  have hqstart : s.start ≤ q.toNat := by omega
  have hmk := mkStream_spec s.text s.chunkLen s.start s.«end» s.gaps hend hse hch hgv
  obtain ⟨hmkInv, hmt, hmc, hms, hme, hmg, hmp⟩ := hmk
  have hq_avoid : ∀ g ∈ (mkStream s.text s.chunkLen s.start s.«end» s.gaps).gaps,
      ¬ inGap g q.toNat := by
    intro g hg
    rw [hmg] at hg
    have := havoid g hg
    unfold inGap
    omega
  have hreset := reset_next (mkStream s.text s.chunkLen s.start s.«end» s.gaps) hmkInv
    q.toNat (by rw [hms]; exact hqstart) hq_avoid
  rw [hreset, hme, hmt]
  rw [peekRead_eq s ⟨⟨hend, hse, ⟨hch, hgv⟩, hcw, hc2w, hsp⟩, hgap, hdisj⟩ k]
  rw [← hqdef]
  by_cases hcase : (s.«end» : Int) ≤ q
  · rw [if_pos (Or.inr hcase), if_pos (by omega)]
  · rw [if_neg (by omega), if_neg (by omega)]

/-- C3, original form, counterexample: over the text
`"ab###cd"` with the gap `[2, 5)`, the stream advanced to position 5
answers `peek(-1) = '#' = 35` — the raw unit inside the gap — while a
fresh stream reset to the resolved position `5 + (-1) = 4` skips the gap
and reports `next = 'c' = 99`. -/
theorem c3_peek_reset_counterexample :
    (((mkStream [97, 98, 35, 35, 35, 99, 100] (fun _ => 20) 0 7 [⟨2, 5⟩]).advance 2).2.peek
        (-1)).1 = 35 ∧
    ((mkStream [97, 98, 35, 35, 35, 99, 100] (fun _ => 20) 0 7 [⟨2, 5⟩]).advance 2).2.resolvePos
        (((((mkStream [97, 98, 35, 35, 35, 99, 100] (fun _ => 20) 0 7 [⟨2, 5⟩]).advance
          2).2.pos : Nat) : Int)) (-1) = 4 ∧
    ((mkStream [97, 98, 35, 35, 35, 99, 100] (fun _ => 20) 0 7 [⟨2, 5⟩]).reset 4).next = 99 ∧
    (35 : Int) ≠ 99 := by
  refine ⟨by decide, by decide, by decide, by decide⟩

/-- C5: no InputStream operation reaches an exceptional state: `next` is
`-1` once the position is at or past `end`; `peek` answers `-1` whenever
the resolved position leaves `[start, end)`; `advance` at the end of the
input answers `-1` without moving the position; and `peek`/`advance`
preserve stream well-formedness. -/
theorem c5_stream_totality (s : InputStream) (h : Inv s) (k : Int) (n : Nat) :
    (s.«end» ≤ s.pos → s.next = -1) ∧
    Inv (s.peek k).2 ∧ Inv (s.advance n).2 ∧
    ((s.resolvePos (s.pos : Int) k < (s.start : Int) ∨
        (s.«end» : Int) ≤ s.resolvePos (s.pos : Int) k) → (s.peek k).1 = -1) ∧
    (s.next < 0 → (s.advance n).1 = -1 ∧ (s.advance n).2.pos = s.pos) := by
  refine ⟨Inv_next_eof h, peek_Inv s h k, (advance_spec s h n).1, ?_, ?_⟩
  · intro hguard
    rw [peekRead_eq s h k, if_pos hguard]
  · intro hneg
    obtain ⟨hn1, _⟩ := Inv_next_neg h hneg
    cases n with
    | zero => exact ⟨hn1, rfl⟩
    | succ n =>
      unfold InputStream.advance
      rw [if_pos hneg]
      exact ⟨rfl, rfl⟩

theorem c5_stream_totality_witness :
    ((mkStream [97, 98, 99] (fun _ => 20) 0 3 []).peek 5).1 = -1 ∧
    (((mkStream [97, 98, 99] (fun _ => 20) 0 3 []).advance 3).2.next = -1) ∧
    (((mkStream [97, 98, 99] (fun _ => 20) 0 3 []).advance 3).2.advance 2).1 = -1 ∧
    (((mkStream [97, 98, 99] (fun _ => 20) 0 3 []).advance 3).2.advance 2).2.pos = 3 := by
  have h0 := mkStream_spec [97, 98, 99] (fun _ => 20) 0 3 [] (by decide) (by decide)
    (by decide) (by decide)
  have h1 := c5_stream_totality (mkStream [97, 98, 99] (fun _ => 20) 0 3 []) h0.1 5 0
  have h2 := (advance_spec (mkStream [97, 98, 99] (fun _ => 20) 0 3 []) h0.1 3).1
  have h3 := c5_stream_totality ((mkStream [97, 98, 99] (fun _ => 20) 0 3 []).advance 3).2
    h2 0 2
  refine ⟨h1.2.2.2.1 (by decide), ?_, ?_, ?_⟩
  · exact Inv_next_eof h2 (by decide)
  · exact (h3.2.2.2.2 (by decide)).1
  · have := (h3.2.2.2.2 (by decide)).2
    rw [this]
    decide

/-- C6: the stream position never rests inside a gap: a chunk fetch lands
the position outside every gap (jumping to a gap's `to` whenever the
fetch position was inside it), the fetched chunk never overlaps a gap,
and `advance` always leaves the position outside every gap. -/
theorem c6_gap_invariant (s : InputStream) (hpre : Pre s) (n : Nat) :
    (∀ g ∈ s.gaps, ¬ inGap g s.getChunk.2.pos) ∧
    (∀ g ∈ s.gaps, inGap g s.pos → g.«to» ≤ s.getChunk.2.pos) ∧
    (s.getChunk.2.chunk ≠ [] → gapFree s.gaps s.getChunk.2.chunkPos
        (s.getChunk.2.chunkPos + s.getChunk.2.chunk.length)) ∧
    (∀ t : InputStream, Inv t → ∀ g ∈ t.gaps, ¬ inGap g (t.advance n).2.pos) := by
  have hpost := getChunk_spec s hpre
  have hframe := getChunk_frame s
  obtain ⟨hft, hfc, hfs, hfe, hfg, hfl, hfp⟩ := hframe
  obtain ⟨hend, hse, ⟨hch, hgv⟩, hcw, hc2w, hsp⟩ := hpre
  have havoid : ∀ g ∈ s.gaps, ¬ inGap g s.getChunk.2.pos := by
    rcases hok : s.getChunk.1 with _ | _
    · obtain ⟨_, _, _, hpe⟩ := hpost.ok_false hok
      intro g hg
      have := (hgv g hg).2.1
      unfold inGap
      rw [hfe] at hpe
      omega
    · obtain ⟨_, _, hg3⟩ := hpost.ok_true hok
      intro g hg
      refine hg3 g ?_
      rw [hfg]
      exact hg
  refine ⟨havoid, ?_, ?_, ?_⟩
  · intro g hg hin
    have h1 := havoid g hg
    unfold inGap at hin h1
    omega
  · intro hne
    rcases hpost.chunk_wf with hce | ⟨_, _, _, hfree⟩
    · exact absurd hce hne
    rw [hfg] at hfree
    exact hfree
  · intro t ht g hg
    have ha := advance_spec t ht n
    have := ha.1.2.1
    refine this g ?_
    rw [ha.2.2.2.2.2.1]
    exact hg

theorem c6_gap_invariant_witness :
    (∀ g ∈ [InputGap.mk 2 5], ¬ inGap g
      (InputStream.getChunk
        ⟨[97, 98, 35, 35, 35, 99, 100], fun _ => 20, 0, 7, [⟨2, 5⟩], 2, [], 0, 0, [], 0, -1, 0⟩).2.pos) ∧
    5 ≤ (InputStream.getChunk
        ⟨[97, 98, 35, 35, 35, 99, 100], fun _ => 20, 0, 7, [⟨2, 5⟩], 2, [], 0, 0, [], 0, -1, 0⟩).2.pos := by
  have h := c6_gap_invariant
    ⟨[97, 98, 35, 35, 35, 99, 100], fun _ => 20, 0, 7, [⟨2, 5⟩], 2, [], 0, 0, [], 0, -1, 0⟩
    (by refine ⟨by decide, by decide, ⟨?_, by decide⟩, Or.inl rfl, Or.inl rfl, by decide⟩
        exact List.chain'_singleton _) 0
  exact ⟨h.1, h.2.1 ⟨2, 5⟩ (by decide) (by decide)⟩

/-! ### C4: lookahead tracking -/

/-- The input positions an `advance(n)` call inspects: the successive
values of `pos` at which the source's loop compares `token.lookAhead`
(the position after each `pos++`; the loop stops inspecting once
`next < 0`). -/
def advanceInspected (s : InputStream) : Nat → List Int
  | 0 => []
  | n + 1 =>
    if s.next < 0 then []
    else ((s.pos : Int) + 1) :: advanceInspected s.advanceStep n

/-- A public stream call whose lookahead tracking the claim describes. -/
inductive StreamOp where
  | peekOp (offset : Int)
  | advanceOp (n : Nat)

def applyOp (s : InputStream) : StreamOp → InputStream
  | .peekOp k => (s.peek k).2
  | .advanceOp n => (s.advance n).2

/-- The input positions one call inspects. -/
def inspectOp (s : InputStream) : StreamOp → List Int
  | .peekOp k => [s.peekInspected k]
  | .advanceOp n => advanceInspected s n

/-- Run a sequence of peek/advance calls, collecting every inspected
position. -/
def runOps (s : InputStream) : List StreamOp → InputStream × List Int
  | [] => (s, [])
  | op :: rest =>
    ((runOps (applyOp s op) rest).1, inspectOp s op ++ (runOps (applyOp s op) rest).2)

theorem foldl_max_init (a : Int) : ∀ l : List Int, a ≤ l.foldl max a
  | [] => le_refl a
  | x :: l => le_trans (le_max_left a x) (foldl_max_init (max a x) l)

theorem peek_lookAhead (s : InputStream) (k : Int) :
    (s.peek k).2.lookAhead = max s.lookAhead (s.peekInspected k) := by
  unfold InputStream.peek
  by_cases hx : s.peekInspected k > s.lookAhead
  · rw [if_pos hx]
    show s.peekInspected k = max s.lookAhead (s.peekInspected k)
    rw [max_eq_right (le_of_lt hx)]
  · rw [if_neg hx]
    show s.lookAhead = max s.lookAhead (s.peekInspected k)
    rw [max_eq_left (by omega)]

theorem readNext_lookAhead (s : InputStream) : s.readNext.lookAhead = s.lookAhead := by
  unfold InputStream.readNext
  by_cases hx : s.chunkOff = s.chunk.length
  · rw [if_pos hx]
    have hfl : s.getChunk.2.lookAhead = s.lookAhead := (getChunk_frame s).2.2.2.2.2.1
    rcases hres : s.getChunk with ⟨ok, s'⟩
    rw [hres] at hfl
    cases ok
    · exact hfl
    · show s'.lookAhead = s.lookAhead
      exact hfl
  · rw [if_neg hx]

theorem advanceStep_lookAhead (s : InputStream) :
    s.advanceStep.lookAhead = max s.lookAhead ((s.pos : Int) + 1) := by
  unfold InputStream.advanceStep
  rw [readNext_lookAhead]
  show (if ((s.pos + 1 : Nat) : Int) > s.lookAhead
    then ((s.pos + 1 : Nat) : Int) else s.lookAhead) = max s.lookAhead ((s.pos : Int) + 1)
  by_cases hx : ((s.pos + 1 : Nat) : Int) > s.lookAhead
  · rw [if_pos hx, max_eq_right (by push_cast at hx ⊢; omega)]
    push_cast
    ring
  · rw [if_neg hx, max_eq_left (by push_cast at hx ⊢; omega)]

theorem advance_lookAhead (s : InputStream) : ∀ n : Nat,
    (s.advance n).2.lookAhead = (advanceInspected s n).foldl max s.lookAhead
  | 0 => rfl
  | n + 1 => by
    unfold InputStream.advance advanceInspected
    by_cases hx : s.next < 0
    · rw [if_pos hx, if_pos hx]
      rfl
    · rw [if_neg hx, if_neg hx]
      simp only [List.foldl_cons]
      rw [advance_lookAhead s.advanceStep n, advanceStep_lookAhead]

theorem runOps_lookAhead (s : InputStream) : ∀ ops : List StreamOp,
    (runOps s ops).1.lookAhead = (runOps s ops).2.foldl max s.lookAhead
  | [] => rfl
  | op :: rest => by
    show (runOps (applyOp s op) rest).1.lookAhead =
      (inspectOp s op ++ (runOps (applyOp s op) rest).2).foldl max s.lookAhead
    rw [List.foldl_append, runOps_lookAhead (applyOp s op) rest]
    congr 1
    cases op with
    | peekOp k =>
      show (s.peek k).2.lookAhead = [s.peekInspected k].foldl max s.lookAhead
      rw [peek_lookAhead]
      rfl
    | advanceOp n =>
      exact advance_lookAhead s n

/-- C3 witness: on the gapped text `"ab###cd"` (gap `[2, 5)`), a fresh
stream's `peek(3)` agrees with the `next` of a fresh stream reset to the
resolved position, both seeing `'d' = 100` (positions 0, 1 skip the gap
to 5, 6). -/
theorem c3_peek_reset_witness :
    (0 : Int) ≤ 3 ∧
    ((mkStream [97, 98, 35, 35, 35, 99, 100] (fun _ => 20) 0 7 [⟨2, 5⟩]).peek 3).1 =
      ((mkStream (mkStream [97, 98, 35, 35, 35, 99, 100] (fun _ => 20) 0 7 [⟨2, 5⟩]).text
          (mkStream [97, 98, 35, 35, 35, 99, 100] (fun _ => 20) 0 7 [⟨2, 5⟩]).chunkLen
          (mkStream [97, 98, 35, 35, 35, 99, 100] (fun _ => 20) 0 7 [⟨2, 5⟩]).start
          (mkStream [97, 98, 35, 35, 35, 99, 100] (fun _ => 20) 0 7 [⟨2, 5⟩]).«end»
          (mkStream [97, 98, 35, 35, 35, 99, 100] (fun _ => 20) 0 7 [⟨2, 5⟩]).gaps).reset
        ((mkStream [97, 98, 35, 35, 35, 99, 100] (fun _ => 20) 0 7 [⟨2, 5⟩]).resolvePos
          (((mkStream [97, 98, 35, 35, 35, 99, 100] (fun _ => 20) 0 7 [⟨2, 5⟩]).pos : Nat) : Int)
          3).toNat).next ∧
    ((mkStream [97, 98, 35, 35, 35, 99, 100] (fun _ => 20) 0 7 [⟨2, 5⟩]).peek 3).1 = 100 :=
  ⟨by decide,
   c3_peek_reset (mkStream [97, 98, 35, 35, 35, 99, 100] (fun _ => 20) 0 7 [⟨2, 5⟩])
     (mkStream_spec [97, 98, 35, 35, 35, 99, 100] (fun _ => 20) 0 7 [⟨2, 5⟩] (by decide)
       (by decide) (List.chain'_singleton _) (by decide)).1 3 (by decide),
   by decide⟩

/-- C4: after any sequence of `peek` and `advance` calls, the active
token's `lookAhead` equals the maximum of its initial value and every
input position inspected by those calls, and in particular it never
decreases. -/
theorem c4_lookahead (s : InputStream) (ops : List StreamOp) :
    (runOps s ops).1.lookAhead = (runOps s ops).2.foldl max s.lookAhead ∧
    s.lookAhead ≤ (runOps s ops).1.lookAhead := by
  refine ⟨runOps_lookAhead s ops, ?_⟩
  rw [runOps_lookAhead s ops]
  exact foldl_max_init _ _

/-! ### C7: read with gap elision -/

/-- The positions (rather than the code units) surviving the gap-removal
loop of `read`: the same take/drop steps applied to a list of input
positions. -/
def posGapsLoop : List InputGap → Nat → Nat → List Nat → List Nat
  | [], _, _, ps => ps
  | g :: rest, frm, toPos, ps =>
    posGapsLoop rest frm toPos
      (if frm < g.«to» ∧ g.«from» < toPos
       then ps.take (g.«from» - frm) ++ ps.drop (min ps.length (g.«to» - frm))
       else ps)

theorem readGapsLoop_map (f : Nat → Nat) :
    ∀ (gs : List InputGap) (frm toPos : Nat) (ps : List Nat),
    readGapsLoop gs frm toPos (ps.map f) = (posGapsLoop gs frm toPos ps).map f
  | [], _, _, _ => rfl
  | g :: rest, frm, toPos, ps => by
    show readGapsLoop rest frm toPos
        (if frm < g.«to» ∧ g.«from» < toPos
         then (ps.map f).take (g.«from» - frm) ++
           (ps.map f).drop (min (ps.map f).length (g.«to» - frm))
         else ps.map f)
      = (posGapsLoop rest frm toPos
        (if frm < g.«to» ∧ g.«from» < toPos
         then ps.take (g.«from» - frm) ++ ps.drop (min ps.length (g.«to» - frm))
         else ps)).map f
    by_cases hx : frm < g.«to» ∧ g.«from» < toPos
    · rw [if_pos hx, if_pos hx, List.length_map, ← List.map_take, ← List.map_drop,
        ← List.map_append]
      exact readGapsLoop_map f rest frm toPos _
    · rw [if_neg hx, if_neg hx]
      exact readGapsLoop_map f rest frm toPos ps

theorem range'_zero_eq (s : Nat) : List.range' s 0 = [] := rfl

theorem range'_succ_eq (s n : Nat) : List.range' s (n + 1) = s :: List.range' (s + 1) n := rfl

theorem range'_take : ∀ (n s k : Nat), (List.range' s n).take k = List.range' s (min n k)
  | 0, _, _ => by simp
  | _ + 1, _, 0 => by simp
  | n + 1, s, k + 1 => by
    rw [range'_succ_eq, List.take_succ_cons, range'_take n (s + 1) k, Nat.succ_min_succ,
      range'_succ_eq]

theorem range'_drop : ∀ (n s k : Nat), (List.range' s n).drop k = List.range' (s + k) (n - k)
  | 0, _, _ => by simp
  | _ + 1, _, 0 => by simp
  | n + 1, s, k + 1 => by
    rw [range'_succ_eq, List.drop_succ_cons, range'_drop n (s + 1) k]
    congr 1 <;> omega

theorem range'_add : ∀ (a s b : Nat),
    List.range' s (a + b) = List.range' s a ++ List.range' (s + a) b
  | 0, s, b => by simp
  | a + 1, s, b => by
    rw [(by omega : a + 1 + b = (a + b) + 1), (by omega : s + (a + 1) = s + 1 + a),
      range'_succ_eq, range'_succ_eq, range'_add a (s + 1) b, List.cons_append]

theorem range'_split3 (s a b d : Nat) :
    List.range' s (a + (b + d))
      = List.range' s a ++ (List.range' (s + a) b ++ List.range' (s + a + b) d) := by
  rw [range'_add, range'_add]

/-- The gap-removal loop on a list of positions computes the gap filter:
processing a sorted gap list from the last gap down, a prefix of intact
positions `[frm, c)` followed by an inert already-processed suffix turns
into the gap-avoiding positions of the prefix followed by the suffix. -/
theorem posGapsLoop_filter_aux (frm toPos : Nat) :
    ∀ (gs : List InputGap), List.Pairwise gapLe gs →
    (∀ g ∈ gs, g.«from» ≤ g.«to») →
    ∀ (c : Nat) (tail : List Nat), frm ≤ c → c ≤ toPos →
    ((c = toPos ∧ tail = []) ∨ ∀ g ∈ gs, g.«to» ≤ c) →
    posGapsLoop gs.reverse frm toPos (List.range' frm (c - frm) ++ tail)
      = (List.range' frm (c - frm)).filter
          (fun p => decide (∀ g ∈ gs, ¬ inGap g p)) ++ tail := by
  intro gs
  induction gs using List.reverseRecOn with
  | nil =>
    intro _ _ c tail _ _ _
    rw [List.reverse_nil]
    show List.range' frm (c - frm) ++ tail = _
    rw [List.filter_eq_self.mpr (fun a _ => by simp)]
  | append_singleton init g ih =>
    intro hpw hval c tail hfc hct hcover
    have hpw' := List.pairwise_append.mp hpw
    have hinit_g : ∀ g' ∈ init, g'.«to» ≤ g.«from» := fun g' hg' =>
      hpw'.2.2 g' hg' g (List.mem_singleton_self g)
    have hgval : g.«from» ≤ g.«to» :=
      hval g (List.mem_append_right _ (List.mem_singleton_self g))
    rw [show (init ++ [g]).reverse = g :: init.reverse by simp]
    show posGapsLoop init.reverse frm toPos
        (if frm < g.«to» ∧ g.«from» < toPos
         then (List.range' frm (c - frm) ++ tail).take (g.«from» - frm) ++
           (List.range' frm (c - frm) ++ tail).drop
             (min (List.range' frm (c - frm) ++ tail).length (g.«to» - frm))
         else List.range' frm (c - frm) ++ tail)
      = (List.range' frm (c - frm)).filter
          (fun p => decide (∀ g' ∈ init ++ [g], ¬ inGap g' p)) ++ tail
    by_cases hov : frm < g.«to» ∧ g.«from» < toPos
    · obtain ⟨hov1, hov2⟩ := hov
      rw [if_pos ⟨hov1, hov2⟩]
      by_cases hgc : g.«to» ≤ c
      · rw [List.length_append, List.length_range',
          (by omega : min ((c - frm) + tail.length) (g.«to» - frm) = g.«to» - frm),
          List.take_append_eq_append_take, List.drop_append_eq_append_drop,
          List.length_range', range'_take, range'_drop,
          (by omega : min (c - frm) (g.«from» - frm) = g.«from» - frm),
          (by omega : g.«from» - frm - (c - frm) = 0), List.take_zero, List.append_nil,
          (by omega : g.«to» - frm - (c - frm) = 0), List.drop_zero,
          (by omega : frm + (g.«to» - frm) = g.«to»),
          (by omega : c - frm - (g.«to» - frm) = c - g.«to»)]
        have hih := ih hpw'.1 (fun g' hg' => hval g' (List.mem_append_left _ hg'))
          (frm + (g.«from» - frm)) (List.range' g.«to» (c - g.«to») ++ tail)
          (by omega) (by omega)
          (Or.inr (fun g' hg' => by have h' := hinit_g g' hg'; omega))
        rw [(by omega : frm + (g.«from» - frm) - frm = g.«from» - frm)] at hih
        rw [hih]
        have hsplit : List.range' frm (c - frm)
            = List.range' frm (g.«from» - frm)
              ++ (List.range' (frm + (g.«from» - frm)) (g.«to» - (frm + (g.«from» - frm)))
                ++ List.range' g.«to» (c - g.«to»)) := by
          have h0 := range'_split3 frm (g.«from» - frm)
            (g.«to» - (frm + (g.«from» - frm))) (c - g.«to»)
          rw [(by omega : (g.«from» - frm) +
            ((g.«to» - (frm + (g.«from» - frm))) + (c - g.«to»)) = c - frm)] at h0
          rw [(by omega : frm + (g.«from» - frm) +
            (g.«to» - (frm + (g.«from» - frm))) = g.«to»)] at h0
          exact h0
        have hmid : (List.range' (frm + (g.«from» - frm))
              (g.«to» - (frm + (g.«from» - frm)))).filter
            (fun p => decide (∀ g' ∈ init ++ [g], ¬ inGap g' p)) = [] := by
          rw [List.filter_eq_nil_iff]
          intro p hp
          obtain ⟨hp1, hp2⟩ := List.mem_range'_1.mp hp
          simp only [decide_eq_true_eq]
          intro hall
          exact hall g (List.mem_append_right _ (List.mem_singleton_self g))
            ⟨by omega, by omega⟩
        have hpart3 : (List.range' g.«to» (c - g.«to»)).filter
            (fun p => decide (∀ g' ∈ init ++ [g], ¬ inGap g' p))
            = List.range' g.«to» (c - g.«to») := by
          apply List.filter_eq_self.mpr
          intro p hp
          obtain ⟨hp1, hp2⟩ := List.mem_range'_1.mp hp
          simp only [decide_eq_true_eq]
          intro g' hg'
          rcases List.mem_append.mp hg' with h' | h'
          · have h'' := hinit_g g' h'
            intro hgap
            obtain ⟨hg1, hg2⟩ := hgap
            omega
          · rw [List.mem_singleton] at h'
            subst h'
            intro hgap
            obtain ⟨hg1, hg2⟩ := hgap
            omega
        rw [hsplit, List.filter_append, List.filter_append, hmid, hpart3, List.nil_append,
          List.append_assoc]
        congr 1
        apply List.filter_congr
        intro p hp
        obtain ⟨hp1, hp2⟩ := List.mem_range'_1.mp hp
        apply decide_eq_decide.mpr
        constructor
        · intro hall g' hg'
          rcases List.mem_append.mp hg' with h' | h'
          · exact hall g' h'
          · rw [List.mem_singleton] at h'
            subst h'
            intro hgap
            obtain ⟨hg1, hg2⟩ := hgap
            omega
        · intro hall g' hg'
          exact hall g' (List.mem_append_left _ hg')
      · have hcfirst : c = toPos ∧ tail = [] := by
          rcases hcover with h | h
          · exact h
          · exact absurd (h g (List.mem_append_right _ (List.mem_singleton_self g)))
              (by omega)
        obtain ⟨hceq, hteq⟩ := hcfirst
        subst hceq
        subst hteq
        rw [List.append_nil, List.length_range',
          (by omega : min (c - frm) (g.«to» - frm) = c - frm),
          range'_take, range'_drop,
          (by omega : min (c - frm) (g.«from» - frm) = g.«from» - frm),
          (by omega : c - frm - (c - frm) = 0), range'_zero_eq, List.append_nil]
        have hih := ih hpw'.1 (fun g' hg' => hval g' (List.mem_append_left _ hg'))
          (frm + (g.«from» - frm)) []
          (by omega) (by omega)
          (Or.inr (fun g' hg' => by have h' := hinit_g g' hg'; omega))
        rw [(by omega : frm + (g.«from» - frm) - frm = g.«from» - frm)] at hih
        rw [List.append_nil, List.append_nil] at hih
        rw [hih]
        have hsplit2 : List.range' frm (c - frm)
            = List.range' frm (g.«from» - frm)
              ++ List.range' (frm + (g.«from» - frm)) ((c - frm) - (g.«from» - frm)) := by
          have h0 := range'_add (g.«from» - frm) frm ((c - frm) - (g.«from» - frm))
          rw [(by omega : (g.«from» - frm) + ((c - frm) - (g.«from» - frm)) = c - frm)] at h0
          exact h0
        have hmid2 : (List.range' (frm + (g.«from» - frm)) ((c - frm) - (g.«from» - frm))).filter
            (fun p => decide (∀ g' ∈ init ++ [g], ¬ inGap g' p)) = [] := by
          rw [List.filter_eq_nil_iff]
          intro p hp
          obtain ⟨hp1, hp2⟩ := List.mem_range'_1.mp hp
          simp only [decide_eq_true_eq]
          intro hall
          exact hall g (List.mem_append_right _ (List.mem_singleton_self g))
            ⟨by omega, by omega⟩
        rw [List.append_nil, hsplit2, List.filter_append, hmid2, List.append_nil]
        apply List.filter_congr
        intro p hp
        obtain ⟨hp1, hp2⟩ := List.mem_range'_1.mp hp
        apply decide_eq_decide.mpr
        constructor
        · intro hall g' hg'
          rcases List.mem_append.mp hg' with h' | h'
          · exact hall g' h'
          · rw [List.mem_singleton] at h'
            subst h'
            intro hgap
            obtain ⟨hg1, hg2⟩ := hgap
            omega
        · intro hall g' hg'
          exact hall g' (List.mem_append_left _ hg')
    · rw [if_neg hov]
      have hcover' : (c = toPos ∧ tail = []) ∨ ∀ g' ∈ init, g'.«to» ≤ c := by
        rcases hcover with h | h
        · exact Or.inl h
        · exact Or.inr fun g' hg' => h g' (List.mem_append_left _ hg')
      rw [ih hpw'.1 (fun g' hg' => hval g' (List.mem_append_left _ hg')) c tail hfc hct hcover']
      congr 1
      apply List.filter_congr
      intro p hp
      obtain ⟨hp1, hp2⟩ := List.mem_range'_1.mp hp
      have hpg : ¬ inGap g p := by
        intro hgap
        obtain ⟨hg1, hg2⟩ := hgap
        rcases not_and_or.mp hov with h1 | h1 <;> omega
      apply decide_eq_decide.mpr
      constructor
      · intro hall g' hg'
        rcases List.mem_append.mp hg' with h' | h'
        · exact hall g' h'
        · rw [List.mem_singleton] at h'
          subst h'
          exact hpg
      · intro hall g' hg'
        exact hall g' (List.mem_append_left _ hg')

theorem posGapsLoop_filter (frm toPos : Nat) (gs : List InputGap)
    (hch : List.Chain' gapLe gs) (hval : ∀ g ∈ gs, g.«from» < g.«to»)
    (h1 : frm ≤ toPos) :
    posGapsLoop gs.reverse frm toPos (List.range' frm (toPos - frm))
      = (List.range' frm (toPos - frm)).filter
          (fun p => decide (∀ g ∈ gs, ¬ inGap g p)) := by
  have h0 := posGapsLoop_filter_aux frm toPos gs (gaps_pairwise hch hval)
    (fun g hg => le_of_lt (hval g hg)) toPos [] h1 (le_refl toPos)
    (Or.inl ⟨rfl, rfl⟩)
  rw [List.append_nil, List.append_nil] at h0
  exact h0

/-- A gap-free contiguous slice of the text, written as positions mapped
through the text. -/
theorem slice_eq_map (text : List Nat) :
    ∀ (n frm : Nat), frm + n ≤ text.length →
    (text.drop frm).take n = (List.range' frm n).map (fun p => text.getD p 0)
  | 0, frm, _ => by simp
  | n + 1, frm, h => by
    have hlt : frm < text.length := by omega
    rw [List.drop_eq_getElem_cons hlt, List.take_succ_cons, range'_succ_eq, List.map_cons,
      slice_eq_map text n (frm + 1) (by omega)]
    congr 1
    rw [List.getD_eq_getElem text 0 hlt]

/-- C7: for every well-formed stream and every `from ≤ to` inside the
text, `read(from, to)` returns exactly the text units of `[from, to)`
whose positions avoid every gap — the range with each gap's overlap
removed. -/
theorem c7_read (s : InputStream) (h : Inv s) (frm toPos : Nat)
    (h1 : frm ≤ toPos) (h2 : toPos ≤ s.text.length) :
    s.read frm toPos
      = ((List.range' frm (toPos - frm)).filter
          (fun p => decide (∀ g ∈ s.gaps, ¬ inGap g p))).map (fun p => s.text.getD p 0) := by
  obtain ⟨⟨hend, hse, ⟨hch, hgv⟩, hcw, hc2w, hsp⟩, hgap, hdisj⟩ := h
  have hval_eq : (if s.chunkPos ≤ frm ∧ toPos ≤ s.chunkPos + s.chunk.length
      then (s.chunk.drop (frm - s.chunkPos)).take (toPos - frm)
      else (s.text.drop frm).take (toPos - frm))
      = (List.range' frm (toPos - frm)).map (fun p => s.text.getD p 0) := by
    split
    · next hcond =>
      obtain ⟨hc1, hc2⟩ := hcond
      rcases hcw with hnil | ⟨hslice, hcs, hce, hcgf⟩
      · rw [hnil] at hc2 ⊢
        simp only [List.length_nil, Nat.add_zero] at hc2
        rw [(by omega : toPos - frm = 0)]
        simp
      · have hclen : s.chunkPos + s.chunk.length ≤ s.text.length := le_trans hce hend
        have hchunk_map : s.chunk
            = (List.range' s.chunkPos s.chunk.length).map (fun p => s.text.getD p 0) := by
          conv_lhs => rw [hslice]
          exact slice_eq_map s.text s.chunk.length s.chunkPos hclen
        conv_lhs => rw [hchunk_map]
        rw [← List.map_drop, ← List.map_take, range'_drop, range'_take,
          (by omega : s.chunkPos + (frm - s.chunkPos) = frm),
          (by omega : min (s.chunk.length - (frm - s.chunkPos)) (toPos - frm) = toPos - frm)]
    · next hcond =>
      exact slice_eq_map s.text (toPos - frm) frm (by omega)
  show (if s.gaps = []
      then (if s.chunkPos ≤ frm ∧ toPos ≤ s.chunkPos + s.chunk.length
        then (s.chunk.drop (frm - s.chunkPos)).take (toPos - frm)
        else (s.text.drop frm).take (toPos - frm))
      else readGapsLoop s.gaps.reverse frm toPos
        (if s.chunkPos ≤ frm ∧ toPos ≤ s.chunkPos + s.chunk.length
         then (s.chunk.drop (frm - s.chunkPos)).take (toPos - frm)
         else (s.text.drop frm).take (toPos - frm))) = _
  rw [hval_eq]
  by_cases hgnil : s.gaps = []
  · rw [if_pos hgnil, hgnil,
      List.filter_eq_self.mpr (fun a _ => by simp)]
  · rw [if_neg hgnil,
      readGapsLoop_map (fun p => s.text.getD p 0) s.gaps.reverse frm toPos
        (List.range' frm (toPos - frm)),
      posGapsLoop_filter frm toPos s.gaps hch (fun g hg => (hgv g hg).1) h1]

/-- C7 witness: on the gapped text `"ab###cd"` (gap `[2, 5)`),
`read(1, 6)` returns `"bc"` — the slice with the gap's overlap removed. -/
theorem c7_read_witness :
    (⟨[97, 98, 35, 35, 35, 99, 100], fun _ => 20, 0, 7, [⟨2, 5⟩], 0, [97, 98], 0, 0, [], 0, 97,
        0⟩ : InputStream).read 1 6
      = ((List.range' 1 5).filter
          (fun p => decide (∀ g ∈ [(⟨2, 5⟩ : InputGap)], ¬ inGap g p))).map
          (fun p => [97, 98, 35, 35, 35, 99, 100].getD p 0) ∧
    (⟨[97, 98, 35, 35, 35, 99, 100], fun _ => 20, 0, 7, [⟨2, 5⟩], 0, [97, 98], 0, 0, [], 0, 97,
        0⟩ : InputStream).read 1 6 = [98, 99] :=
  ⟨c7_read _ ⟨⟨by decide, by decide, ⟨List.chain'_singleton _, by decide⟩, by decide, by decide,
      by decide⟩, by decide, by decide⟩ 1 6 (by decide) (by decide), by decide⟩

end LR
